import Mathlib

/-!
# web-calculator: the `Calculator` class of `script.js`

A shallow embedding of the calculator controller: the input buffer
(`this.output`) and its keystroke validation, `calculateResult` with
`formatResult`, the bounded history log with its storage mirror and its
rendered list, and the start-up read of the persisted log.

JavaScript strings are modelled as lists of characters (the strings inside a
value that `JSON.parse` returns as lists of UTF-16 code units), JavaScript
numbers as IEEE-754 binary64 values (a sign and a magnitude counted in units
of `2^-1074`, plus the infinities and NaN), and the values `JSON.parse`
returns as a tree. The expression evaluator (`new Function`), `JSON.stringify` and the
clock are supplied by the host and enter as parameters.
-/

set_option autoImplicit false
set_option exponentiation.threshold 5000
set_option maxRecDepth 100000

namespace Calc

/-- A JavaScript string, as the list of its characters. -/
abbrev Str := List Char

/-! ## JavaScript numbers -/

/-- A JavaScript Number. `fin neg mag` is the finite value
`(-1)^neg * mag / 2^1074`; every finite binary64 value has this form, and
`fin true 0` is the negative zero. -/
inductive JSNum where
  | fin (neg : Bool) (mag : Nat)
  | inf (neg : Bool)
  | nan
deriving DecidableEq, Repr

/-- The number of magnitude units in the value one: `2^1074`. -/
def unitScale : Nat := 2 ^ 1074

/-- The magnitude, in units, of `2^1024`: the first value past the finite range. -/
def overflowBound : Nat := 2 ^ 2098

/-- Helper of `bitLen`, with a fuel argument: 64 binary digits are counted at
once while there are that many. -/
def bitLenAux : Nat → Nat → Nat
  | 0, _ => 0
  | fuel + 1, n =>
      if n = 0 then 0
      else if 2 ^ 64 ≤ n then 64 + bitLenAux fuel (n / 2 ^ 64)
      else 1 + bitLenAux fuel (n / 2)

/-- The number of binary digits of `n`. -/
def bitLen (n : Nat) : Nat := bitLenAux n n

/-- The binary64 rounding (to nearest, ties to even) of the rational `p / q`
counted in units: the result has at most 53 significant bits. -/
def roundToDouble (p q : Nat) : Nat :=
  let s := bitLen (p / q) - 53
  let d := q * 2 ^ s
  let m := p / d
  let r := p % d
  let m1 := if 2 * r < d then m else if d < 2 * r then m + 1 else if m % 2 = 0 then m else m + 1
  m1 * 2 ^ s

/-- The Number nearest to `(-1)^neg * p / q` units, infinite on overflow. -/
def mkNum (neg : Bool) (p q : Nat) : JSNum :=
  let m := roundToDouble p q
  if m < overflowBound then .fin neg m else .inf neg

/-- The Number denoted by a natural number (a decimal integer literal). -/
def ofNat (n : Nat) : JSNum := mkNum false (n * unitScale) 1

/-- The JavaScript `*` on Numbers. -/
def fmul : JSNum → JSNum → JSNum
  | .fin s a, .fin t b => mkNum (s != t) (a * b) unitScale
  | .fin s a, .inf t => if a = 0 then .nan else .inf (s != t)
  | .inf s, .fin t b => if b = 0 then .nan else .inf (s != t)
  | .inf s, .inf t => .inf (s != t)
  | _, _ => .nan

/-- The JavaScript `/` on Numbers. -/
def fdiv : JSNum → JSNum → JSNum
  | .fin s a, .fin t b =>
      if b = 0 then (if a = 0 then .nan else .inf (s != t))
      else mkNum (s != t) (a * unitScale) b
  | .fin s _, .inf t => .fin (s != t) 0
  | .inf s, .fin t _ => .inf (s != t)
  | _, _ => .nan

/-- The JavaScript unary `-` on Numbers. -/
def fneg : JSNum → JSNum
  | .fin s a => .fin (!s) a
  | .inf s => .inf (!s)
  | .nan => .nan

/-- The JavaScript `+` on Numbers. -/
def fadd : JSNum → JSNum → JSNum
  | .fin s a, .fin t b =>
      if s = t then mkNum s (a + b) 1
      else if a = b then .fin false 0
      else if b < a then mkNum s (a - b) 1 else mkNum t (b - a) 1
  | .fin _ _, .inf t => .inf t
  | .inf s, .fin _ _ => .inf s
  | .inf s, .inf t => if s = t then .inf s else .nan
  | _, _ => .nan

/-- The global `isFinite` on a Number. -/
def isFinite : JSNum → Bool
  | .fin _ _ => true
  | _ => false

/-- The builtin `Math.round`: the nearest integer, ties towards `+∞`; a
negative argument of magnitude at most one half gives the negative zero. -/
def mathRound : JSNum → JSNum
  | .fin false a => .fin false ((2 * a + unitScale) / (2 * unitScale) * unitScale)
  | .fin true a => .fin true ((2 * a + unitScale - 1) / (2 * unitScale) * unitScale)
  | x => x

/-- The test `x % 1 === 0`: the Number is finite and integral. -/
def isWhole : JSNum → Bool
  | .fin _ a => a % unitScale = 0
  | _ => false

/-! ## Number to string -/

/-- The character of a decimal digit. -/
def digitChar (d : Nat) : Char := Char.ofNat (48 + d)

/-- Helper of `natToString`: prepends the digits of `n` to `acc`. -/
def natDigitsAux : Nat → Nat → Str → Str
  | 0, _, acc => acc
  | fuel + 1, n, acc =>
      if n < 10 then digitChar n :: acc
      else natDigitsAux fuel (n / 10) (digitChar (n % 10) :: acc)

/-- The decimal digits of a natural number. -/
def natToString (n : Nat) : Str := natDigitsAux (n + 1) n []

/-- In the shortest-digits search: a candidate `s = 10^k` is written `10^(k-1)`
with the decimal exponent raised by one. -/
def normDigits (k s n : Nat) : Nat × Nat :=
  if s = 10 ^ k then (10 ^ (k - 1), n + 1) else (s, n)

/-- One step of the shortest-digits search of `Number::toString` for the whole
value `v` of `d` decimal digits: a `k`-digit `s` (with its decimal exponent
`n`) such that `s * 10^(n-k)` rounds to `v`, the closest to `v` if there are
two, the even one on a tie. -/
def shortestStep (v d k : Nat) : Option (Nat × Nat) :=
  let p := 10 ^ (d - k)
  let lo := v / p
  let hi := lo + 1
  let okLo : Bool := roundToDouble (lo * p) 1 = v
  let okHi : Bool := roundToDouble (hi * p) 1 = v
  if okLo && okHi then
    if v - lo * p < hi * p - v then some (lo, d)
    else if hi * p - v < v - lo * p then some (normDigits k hi d)
    else if lo % 2 = 0 then some (lo, d) else some (normDigits k hi d)
  else if okLo then some (lo, d)
  else if okHi then some (normDigits k hi d)
  else none

/-- The shortest-digits search: the least `k` that has a candidate, as
`(k, s, n)`. -/
def shortestSearch (v d : Nat) : Nat → Nat → Nat × Nat × Nat
  | 0, _ => (d, v, d)
  | fuel + 1, k =>
      match shortestStep v d k with
      | some (s, n) => (k, s, n)
      | none => shortestSearch v d fuel (k + 1)

/-- The builtin `Number::toString` on a positive whole value `v`. Below `2^53`
the shortest digits that round back to `v` are the digits of `v` itself; from
there on they are found by search, and from `10^21` on the exponent form is
used. -/
def wholeToString (v : Nat) : Str :=
  if v < 2 ^ 53 then natToString v
  else
    let d := (natToString v).length
    let (k, s, n) := shortestSearch v d d 1
    let ds := natToString s
    if n ≤ 21 then ds ++ List.replicate (n - k) '0'
    else
      match ds with
      | [] => []
      | c :: rest =>
          (if rest = [] then [c] else c :: '.' :: rest) ++ "e+".toList ++ natToString (n - 1)

/-- The builtin `Number::toString` on the Numbers it is applied to here: the
whole ones, the infinities and NaN. -/
def numberToString : JSNum → Str
  | .nan => "NaN".toList
  | .inf false => "Infinity".toList
  | .inf true => "-Infinity".toList
  | .fin neg a =>
      if a = 0 then "0".toList
      else (if neg then ['-'] else []) ++ wholeToString (a / unitScale)

/-- The builtin `Number.prototype.toFixed` with 8 fraction digits: the integer
`n` nearest to `|x| * 10^8` (the larger on a tie), written with at least nine
digits and a point before the last eight, behind a `-` when `x < 0`. -/
def toFixed8 : JSNum → Str
  | .fin neg a =>
      if 10 ^ 21 * unitScale ≤ a then numberToString (.fin neg a)
      else
        let n := (2 * a * 10 ^ 8 + unitScale) / (2 * unitScale)
        let m := natToString n
        let m := List.replicate (9 - m.length) '0' ++ m
        let body := m.take (m.length - 8) ++ '.' :: m.drop (m.length - 8)
        if neg && a != 0 then '-' :: body else body
  | x => numberToString x

/-! ## Regular expressions used by the calculator -/

/-- Whether the whole string matches `\.?0+`. -/
def matchDotZeros : Str → Bool
  | '.' :: rest => !rest.isEmpty && rest.all (· == '0')
  | s => !s.isEmpty && s.all (· == '0')

/-- The call `s.replace(/\.?0+$/, '')`: the leftmost match, which has to reach
the end of the string, is removed. -/
def replaceTrailingZeros : Str → Str
  | [] => []
  | c :: cs => if matchDotZeros (c :: cs) then [] else c :: replaceTrailingZeros cs

/-- The call `s.replace(/c/g, r)` for a single character `c`. -/
def replaceAll (c : Char) (r : Str) : Str → Str
  | [] => []
  | x :: xs => (if x = c then r else [x]) ++ replaceAll c r xs

/-- Whether some two adjacent characters of the string both satisfy `p`: the
test of a regular expression `[...]{2,}`. -/
def hasAdjacent (p : Char → Bool) : Str → Bool
  | a :: b :: rest => (p a && p b) || hasAdjacent p (b :: rest)
  | _ => false

/-- The call `s.split(/[...]/)` for a character class `p`. -/
def splitOn (p : Char → Bool) : Str → List Str
  | [] => [[]]
  | c :: cs =>
      if p c then [] :: splitOn p cs
      else
        match splitOn p cs with
        | [] => [[c]]
        | x :: xs => (c :: x) :: xs

/-- The character class `[\+\-\*\/\%]`. -/
def isOperatorChar (c : Char) : Bool :=
  c = '+' || c = '-' || c = '*' || c = '/' || c = '%'

/-- The character class `[\+\-\*\/]`. -/
def isArithChar (c : Char) : Bool :=
  c = '+' || c = '-' || c = '*' || c = '/'

/-! ## formatResult -/

/-- The Number `10000000000`. -/
def ten10 : JSNum := ofNat 10000000000

/-- The first line of `formatResult`:
`Math.round(result * 10000000000) / 10000000000`. -/
def rounded10 (result : JSNum) : JSNum :=
  fdiv (mathRound (fmul result ten10)) ten10

/-- The method `formatResult`. -/
def formatResult (result : JSNum) : Str :=
  let rounded := rounded10 result
  if isWhole rounded then numberToString rounded
  else replaceTrailingZeros (toFixed8 rounded)

/-! ## JSON values and `JSON.parse` -/

/-- A JavaScript string held in a parsed value, as its UTF-16 code units. -/
abbrev Units := List Nat

/-- The UTF-16 code units of a character: one, or a surrogate pair. -/
def charUnits (c : Char) : Units :=
  if c.toNat < 0x10000 then [c.toNat]
  else [0xD800 + (c.toNat - 0x10000) / 0x400, 0xDC00 + (c.toNat - 0x10000) % 0x400]

/-- The UTF-16 code units of a string. -/
def utf16 : Str → Units
  | [] => []
  | c :: cs => charUnits c ++ utf16 cs

/-- A value returned by `JSON.parse`. A number is kept as the decimal it was
written as, `(-1)^neg * mant * 10^exp10`; a string and a member name as their
code units; an object as its members in source order. -/
inductive JSON where
  | null
  | bool (b : Bool)
  | num (neg : Bool) (mant : Nat) (exp10 : Int)
  | str (s : Units)
  | arr (items : List JSON)
  | obj (members : List (Units × JSON))

/-- JSON white space. -/
def isWs (c : Char) : Bool :=
  c = ' ' || c.toNat = 9 || c.toNat = 10 || c.toNat = 13

/-- Drops leading white space. -/
def skipWs : Str → Str
  | [] => []
  | c :: cs => if isWs c then skipWs cs else c :: cs

/-- A decimal digit character. -/
def isDigit (c : Char) : Bool := 48 ≤ c.toNat && c.toNat ≤ 57

/-- The value of a string of decimal digits. -/
def digitsValue (ds : Str) : Nat :=
  ds.foldl (fun acc c => 10 * acc + (c.toNat - 48)) 0

/-- The value of a hexadecimal digit character, if it is one. -/
def hexValue (c : Char) : Option Nat :=
  if 48 ≤ c.toNat && c.toNat ≤ 57 then some (c.toNat - 48)
  else if 97 ≤ c.toNat && c.toNat ≤ 102 then some (c.toNat - 87)
  else if 65 ≤ c.toNat && c.toNat ≤ 70 then some (c.toNat - 55)
  else none

/-- The exponent part of a JSON number, if one follows. -/
def parseExponent (s : Str) : Option (Int × Str) :=
  match s with
  | c :: r =>
      if c = 'e' || c = 'E' then
        let (neg, r1) :=
          match r with
          | '-' :: t => (true, t)
          | '+' :: t => (false, t)
          | _ => (false, r)
        let ds := r1.takeWhile isDigit
        if ds.isEmpty then none
        else
          let e : Int := digitsValue ds
          some (if neg then -e else e, r1.dropWhile isDigit)
      else some (0, s)
  | [] => some (0, s)

/-- A JSON number at the head of the input, with the rest of the input. -/
def parseNumber (s : Str) : Option (JSON × Str) :=
  let (neg, s1) :=
    match s with
    | '-' :: r => (true, r)
    | _ => (false, s)
  let ip := match s1 with
    | '0' :: _ => ['0']
    | _ => s1.takeWhile isDigit
  if ip.isEmpty then none
  else
    let s2 := s1.drop ip.length
    let frac : Option (Str × Str) :=
      match s2 with
      | '.' :: r =>
          let fp := r.takeWhile isDigit
          if fp.isEmpty then none else some (fp, r.dropWhile isDigit)
      | _ => some ([], s2)
    match frac with
    | none => none
    | some (fp, s3) =>
        match parseExponent s3 with
        | none => none
        | some (e, s4) => some (.num neg (digitsValue (ip ++ fp)) (e - fp.length), s4)

/-- The code units of a JSON string after its opening quote, up to the
closing quote, with the rest of the input; `acc` holds the units read so far,
the last one first. A `\u` escape gives the code unit it names. -/
def parseStringBody : Str → Units → Option (Units × Str)
  | [], _ => none
  | c :: r, acc =>
      if c.toNat = 34 then some (acc.reverse, r)
      else if c.toNat = 92 then
        match r with
        | e :: r1 =>
            if e.toNat = 34 || e.toNat = 92 || e = '/' then parseStringBody r1 (e.toNat :: acc)
            else if e = 'b' then parseStringBody r1 (8 :: acc)
            else if e = 'f' then parseStringBody r1 (12 :: acc)
            else if e = 'n' then parseStringBody r1 (10 :: acc)
            else if e = 'r' then parseStringBody r1 (13 :: acc)
            else if e = 't' then parseStringBody r1 (9 :: acc)
            else if e = 'u' then
              match r1 with
              | h1 :: h2 :: h3 :: h4 :: r2 =>
                  match hexValue h1, hexValue h2, hexValue h3, hexValue h4 with
                  | some a, some b, some c1, some d =>
                      parseStringBody r2 ((((a * 16 + b) * 16 + c1) * 16 + d) :: acc)
                  | _, _, _, _ => none
              | _ => none
            else none
        | [] => none
      else if c.toNat < 32 then none
      else parseStringBody r ((charUnits c).reverse ++ acc)

mutual
/-- A JSON value at the head of the input (after white space), with the rest. -/
def parseValue : Nat → Str → Option (JSON × Str)
  | 0, _ => none
  | fuel + 1, s =>
      match skipWs s with
      | 'n' :: 'u' :: 'l' :: 'l' :: r => some (.null, r)
      | 't' :: 'r' :: 'u' :: 'e' :: r => some (.bool true, r)
      | 'f' :: 'a' :: 'l' :: 's' :: 'e' :: r => some (.bool false, r)
      | '[' :: r =>
          match skipWs r with
          | ']' :: r1 => some (.arr [], r1)
          | _ => parseElements fuel r []
      | c :: r =>
          if c.toNat = 34 then
            match parseStringBody r [] with
            | some (str, r1) => some (.str str, r1)
            | none => none
          else if c.toNat = 123 then
            match skipWs r with
            | c1 :: r1 => if c1.toNat = 125 then some (.obj [], r1) else parseMembers fuel r []
            | [] => none
          else parseNumber (c :: r)
      | [] => none
/-- The elements of a JSON array after its opening bracket, up to the
closing bracket. -/
def parseElements : Nat → Str → List JSON → Option (JSON × Str)
  | 0, _, _ => none
  | fuel + 1, s, acc =>
      match parseValue fuel s with
      | none => none
      | some (v, r) =>
          match skipWs r with
          | ',' :: r1 => parseElements fuel r1 (v :: acc)
          | ']' :: r1 => some (.arr (v :: acc).reverse, r1)
          | _ => none
/-- The members of a JSON object after its opening brace, up to the closing
brace. -/
def parseMembers : Nat → Str → List (Units × JSON) → Option (JSON × Str)
  | 0, _, _ => none
  | fuel + 1, s, acc =>
      match skipWs s with
      | q :: r =>
          if q.toNat = 34 then
            match parseStringBody r [] with
            | none => none
            | some (key, r1) =>
                match skipWs r1 with
                | ':' :: r2 =>
                    match parseValue fuel r2 with
                    | none => none
                    | some (v, r3) =>
                        match skipWs r3 with
                        | c :: r4 =>
                            if c = ',' then parseMembers fuel r4 ((key, v) :: acc)
                            else if c.toNat = 125 then some (.obj ((key, v) :: acc).reverse, r4)
                            else none
                        | [] => none
                | _ => none
          else none
      | [] => none
end

/-- The builtin `JSON.parse` on a text: `none` when it throws a SyntaxError. -/
def jsonParse (text : Str) : Option JSON :=
  match parseValue (2 * text.length + 2) text with
  | some (v, r) => if (skipWs r).isEmpty then some v else none
  | none => none

/-- The abstract operation ToBoolean on a parsed value: `null`, `false`, a
number that is zero as a Number and the empty string are falsy. A decimal is
zero as a Number when it is at most `2^-1075`. -/
def truthy : JSON → Bool
  | .null => false
  | .bool b => b
  | .num _ mant exp10 => !(mant = 0 || (exp10 < 0 && mant * 2 ^ 1075 ≤ 10 ^ exp10.natAbs))
  | .str s => !s.isEmpty
  | .arr _ => true
  | .obj _ => true

/-- Whether the value is `null`, on which a property access throws. -/
def isNull : JSON → Bool
  | .null => true
  | _ => false

/-- Whether the object has a member of that name. -/
def hasMember (name : Units) (members : List (Units × JSON)) : Bool :=
  members.any fun m => m.1 == name

mutual
/-- Whether the abstract operation ToString throws on a parsed value. On an
object it calls the `toString` found on it, and a parsed object that has a
member of that name holds a value that cannot be called, after which the
inherited `valueOf` gives the object back: a TypeError. Without such a member
the inherited `toString` gives a string. An array is joined, which applies
ToString to each element other than `null`. -/
def toStringThrows : JSON → Bool
  | .obj members => hasMember (utf16 "toString".toList) members
  | .arr items => anyToStringThrows items
  | _ => false
/-- Whether ToString throws on an element of the list. -/
def anyToStringThrows : List JSON → Bool
  | [] => false
  | v :: vs => toStringThrows v || anyToStringThrows vs
end

/-- The property read `item.name` on a parsed value other than `null`: the
last member of that name of an object, and `undefined` (here `none`) when there
is none or the value is no object. -/
def getMember (name : Units) : JSON → Option JSON
  | .obj members => (members.reverse.find? fun m => m.1 == name).map fun m => m.2
  | _ => none

/-- Whether rendering an item throws: the item is `null`, or ToString throws
on its `expression`, `result` or `timestamp` in the template literal of
`addHistoryItem`. -/
def renderThrows (item : JSON) : Bool :=
  isNull item ||
    [utf16 "expression".toList, utf16 "result".toList, utf16 "timestamp".toList].any
      fun name =>
        match getMember name item with
        | some v => toStringThrows v
        | none => false

/-! ## The calculator state -/

/-- What the host environment supplies. `evalJS e` is the call
`new Function('return ' + e)()` followed by the conversion of its result to a
Number: `none` when that throws. `stringify` is `JSON.stringify` on the
history array. -/
structure Host where
  evalJS : Str → Option JSNum
  stringify : List JSON → Str

/-- The state of a `Calculator` and of the page elements and storage key it
writes: `output` and `history` are the fields of the object, `calcHistory` the
value stored under that key (`none` when absent), `historyList` the children
of the history list element from top to bottom (each child stands for the
item it renders), `historyDisplay`, `display` and `notification` the texts of
those elements. -/
structure Calculator where
  output : Str
  history : List JSON
  calcHistory : Option Str
  historyList : List JSON
  historyDisplay : Str
  display : Str
  notification : Str

/-- The texts the page elements hold before the script runs. -/
structure Page where
  historyDisplay : Str
  display : Str
  notification : Str

/-- The object literal `{expression, result, timestamp}` of `saveToHistory`. -/
def historyItem (expression result timestamp : Str) : JSON :=
  .obj [(utf16 "expression".toList, .str (utf16 expression)),
    (utf16 "result".toList, .str (utf16 result)),
    (utf16 "timestamp".toList, .str (utf16 timestamp))]

/-- The method `showNotification`. -/
def showNotification (message : Str) (c : Calculator) : Calculator :=
  { c with notification := message }

/-- The method `updateDisplay`. -/
def updateDisplay (c : Calculator) : Calculator :=
  let displayValue :=
    replaceAll '-' ['−'] (replaceAll '*' ['×'] (replaceAll '/' ['÷'] c.output))
  { c with display := if displayValue.isEmpty then ['0'] else displayValue }

/-- The method `addToDisplay`. -/
def addToDisplay (value : Str) (c : Calculator) : Calculator :=
  if c.output.length ≥ 30 then showNotification "Maximum input length reached".toList c
  else updateDisplay { c with output := c.output ++ value }

/-- The method `clearDisplay`. -/
def clearDisplay (c : Calculator) : Calculator :=
  { updateDisplay { c with output := [] } with historyDisplay := [] }

/-- The method `deleteLast`. -/
def deleteLast (c : Calculator) : Calculator :=
  updateDisplay { c with output := c.output.dropLast }

/-- The method `saveHistory`. -/
def saveHistory (h : Host) (c : Calculator) : Calculator :=
  { c with calcHistory := some (h.stringify c.history) }

/-- The method `addHistoryItem`: `none` when it throws, which it does in the
template literal, before anything is changed; otherwise the new child is put
before the first child of the list. -/
def addHistoryItem (item : JSON) (c : Calculator) : Option Calculator :=
  if renderThrows item then none
  else some { c with historyList := item :: c.historyList }

/-- The method `saveToHistory`; `timestamp` is the reading of the clock. The
result is `error` with the state reached when `addHistoryItem` throws. -/
def saveToHistory (h : Host) (timestamp expression result : Str) (c : Calculator) :
    Except Calculator Calculator :=
  let item := historyItem expression result timestamp
  let c1 := { c with history := item :: c.history }
  let c2 := if c1.history.length > 10 then { c1 with history := c1.history.dropLast } else c1
  let c3 := saveHistory h c2
  match addHistoryItem item c3 with
  | some c4 => .ok c4
  | none => .error c3

/-- The call `items.forEach(item => this.addHistoryItem(item))`: `none` when a
call throws. -/
def forEachAdd : List JSON → Calculator → Option Calculator
  | [], c => some c
  | item :: rest, c =>
      match addHistoryItem item c with
      | some c1 => forEachAdd rest c1
      | none => none

/-- The method `loadHistory`: `none` when it throws. -/
def loadHistory (c : Calculator) : Option Calculator :=
  forEachAdd c.history { c with historyList := [] }

/-- The method `clearHistory`. -/
def clearHistory (h : Host) (c : Calculator) : Calculator :=
  showNotification "History cleared".toList
    (saveHistory h { c with history := [], historyList := [] })

/-- The translation of the buffer at the head of `calculateResult`. -/
def translate (output : Str) : Str :=
  replaceAll '%' "/100".toList
    (replaceAll '−' ['-'] (replaceAll '×' ['*'] (replaceAll '÷' ['/'] output)))

/-- The test `/([\+\-\*\/]){2,}/.test(expression)`. -/
def invalidExpression (expression : Str) : Bool :=
  hasAdjacent isArithChar expression

/-- The `catch` branch of `calculateResult`. -/
def calculationError (c : Calculator) : Calculator :=
  showNotification "Calculation error".toList (updateDisplay { c with output := "Error".toList })

/-- The method `calculateResult`; `timestamp` is the reading of the clock. -/
def calculateResult (h : Host) (timestamp : Str) (c : Calculator) : Calculator :=
  if c.output.isEmpty then c
  else
    let expression := translate c.output
    if invalidExpression expression then calculationError c
    else
      match h.evalJS expression with
      | none => calculationError c
      | some result =>
          if !isFinite result then calculationError c
          else
            let formattedResult := formatResult result
            match saveToHistory h timestamp c.output formattedResult c with
            | .error c1 => calculationError c1
            | .ok c1 =>
                let c2 := updateDisplay { c1 with output := formattedResult }
                { c2 with historyDisplay := c2.output ++ " = ".toList ++ formattedResult }

/-- The array `operators` of `handleButtonClick`. -/
def operators : List Str := [['+'], ['-'], ['*'], ['/'], ['%']]

/-- The call `s.slice(-1)`: the last character as a string, empty on the
empty string. -/
def lastChar (s : Str) : Str := s.drop (s.length - 1)

/-- The number being typed: the last part of the buffer split at the
operators. -/
def currentNumber (output : Str) : Str :=
  ((splitOn isOperatorChar output).getLast?).getD []

/-- The method `handleButtonClick`; `timestamp` is the reading of the clock. -/
def handleButtonClick (h : Host) (timestamp btnValue : Str) (c : Calculator) : Calculator :=
  if operators.contains btnValue && operators.contains (lastChar c.output) then
    showNotification "Cannot enter multiple operators in sequence".toList c
  else if btnValue = ['.'] && (currentNumber c.output).contains '.' then
    showNotification "Number already has a decimal point".toList c
  else if btnValue = "=".toList then calculateResult h timestamp c
  else if btnValue = "AC".toList then clearDisplay c
  else if btnValue = "DEL".toList then deleteLast c
  else addToDisplay btnValue c

/-- A sequence of button clicks, each with the reading of the clock at it. -/
def clicks (h : Host) (events : List (Str × Str)) (c : Calculator) : Calculator :=
  events.foldl (fun acc e => handleButtonClick h e.1 e.2 acc) c

/-- The constructor followed by `init`, on a page that has the elements the
constructor looks up and on the stored value of `calcHistory`: `none` when it
throws. `JSON.parse` is applied to the string form of what `getItem` returned,
which is `null` for an absent key; a falsy result is replaced by the empty
array; `forEach` exists on arrays only. -/
def startup (page : Page) (stored : Option Str) : Option Calculator :=
  match jsonParse (stored.getD "null".toList) with
  | none => none
  | some v =>
      match (if truthy v then v else .arr []) with
      | .arr items =>
          loadHistory
            { output := [], history := items, calcHistory := stored, historyList := [],
              historyDisplay := page.historyDisplay, display := page.display,
              notification := page.notification }
      | _ => none

/-- The operations on the history log. -/
inductive HistoryOp where
  | save (timestamp expression result : Str)
  | clear

/-- One operation on the history log: the state it leaves, whether it returns
or throws. -/
def HistoryOp.run (h : Host) : HistoryOp → Calculator → Calculator
  | .save timestamp expression result, c =>
      match saveToHistory h timestamp expression result c with
      | .ok c1 => c1
      | .error c1 => c1
  | .clear, c => clearHistory h c

/-- A sequence of operations on the history log. -/
def runHistoryOps (h : Host) (ops : List HistoryOp) (c : Calculator) : Calculator :=
  ops.foldl (fun acc op => op.run h acc) c

/-! ## An evaluator for closed examples -/

/-- A decimal integer literal without a leading zero. -/
def parseLiteral (s : Str) : Option Nat :=
  if s.isEmpty || !s.all isDigit || (s.length > 1 && s.head? = some '0') then none
  else some (digitsValue s)

/-- The value of the expressions `n` and `n op m`, for decimal integer
literals `n`, `m` and `op` one of `+ - * /`, in Number arithmetic; other
texts are left out and reported as throwing. -/
def arithEval (e : Str) : Option JSNum :=
  match e.dropWhile isDigit with
  | [] => (parseLiteral e).map ofNat
  | op :: rest =>
      match parseLiteral (e.takeWhile isDigit), parseLiteral rest with
      | some n, some m =>
          if op = '+' then some (fadd (ofNat n) (ofNat m))
          else if op = '-' then some (fadd (ofNat n) (fneg (ofNat m)))
          else if op = '*' then some (fmul (ofNat n) (ofNat m))
          else if op = '/' then some (fdiv (ofNat n) (ofNat m))
          else none
      | _, _ => none

/-- A host with `arithEval` as evaluator, and a `stringify` that only records
the length of the array. -/
def exampleHost : Host where
  evalJS := arithEval
  stringify := fun items => '[' :: natToString items.length ++ [']']

/-- A state with the given buffer and history, all else empty. -/
def stateWith (output : Str) (history : List JSON) : Calculator where
  output := output
  history := history
  calcHistory := none
  historyList := history
  historyDisplay := []
  display := ['0']
  notification := []

/-- A page with empty texts and `0` on the display. -/
def blankPage : Page where
  historyDisplay := []
  display := ['0']
  notification := []

/-! ## Definitions used in the statements -/

/-- The tokens that edit the buffer: the digits, the operators, the point,
`AC` and `DEL`. -/
def editTokens : List Str :=
  [['0'], ['1'], ['2'], ['3'], ['4'], ['5'], ['6'], ['7'], ['8'], ['9'],
   ['+'], ['-'], ['*'], ['/'], ['%'], ['.'], "AC".toList, "DEL".toList]

/-- Whether the last character of the string satisfies `p`. -/
def lastSatisfies (p : Char → Bool) (s : Str) : Bool :=
  match s.getLast? with
  | some l => p l
  | none => false

/-- The last part of the split: the run being typed. -/
def lastRun (p : Char → Bool) (s : Str) : Str := ((splitOn p s).getLast?).getD []

/-- Every numeric run of the buffer has at most one point. -/
def runsHaveOnePoint (s : Str) : Prop :=
  ∀ run ∈ splitOn isOperatorChar s, run.count '.' ≤ 1

instance (s : Str) : Decidable (runsHaveOnePoint s) := by
  unfold runsHaveOnePoint
  infer_instance

/-- The characters a buffer typed on the keypad is made of. -/
def bufferAlphabet : List Char :=
  ['0', '1', '2', '3', '4', '5', '6', '7', '8', '9', '.', '+', '-', '*', '/', '%']

/-- Whether the first character of the string satisfies `p`. -/
def headSatisfies (p : Char → Bool) : Str → Bool
  | [] => false
  | a :: _ => p a

/-- Ten entries, as a full history log. -/
def fullLog : List JSON :=
  (List.range 10).map fun i => historyItem (natToString i) (natToString i) "11:59".toList

/-- The stored text of one history entry. -/
def entryText (expression result : Str) : Str :=
  "\x7b\"expression\":\"".toList ++ expression ++ "\",\"result\":\"".toList ++ result ++
    "\",\"timestamp\":\"12:00\"\x7d".toList

/-- The stored text of an array with the given element texts. -/
def arrayText (elements : List Str) : Str :=
  '[' :: List.intercalate [','] elements ++ [']']

/-- A stored log of eleven entries. -/
def elevenEntries : Str :=
  arrayText ((List.range 11).map fun i => entryText (natToString i) (natToString i))

/-- A stored log of two entries: `2+2` (the newer) and `1+1`. -/
def twoEntries : Str :=
  arrayText [entryText "2+2".toList "4".toList, entryText "1+1".toList "2".toList]

/-- The `expression` of a history item, when it is a string. -/
def expressionOf (item : JSON) : Units :=
  match getMember (utf16 "expression".toList) item with
  | some (.str e) => e
  | _ => []

/-- The `k` low decimal digits of `r`, zero-padded on the left. -/
def fixedDigits : Nat → Nat → Str
  | 0, _ => []
  | k + 1, r => fixedDigits k (r / 10) ++ [digitChar (r % 10)]

/-- The string without its trailing zeros. -/
def trimTrailingZeros (s : Str) : Str := s.rdropWhile (· == '0')

/-- The decimal rendering of `(-1)^neg * n / 10^8`: the sign, the integer
part, then, unless no fraction digit is left after trimming the trailing
zeros, a point and the trimmed fraction digits. -/
def renderScaled (neg : Bool) (n : Nat) : Str :=
  let frac := trimTrailingZeros (fixedDigits 8 (n % 10 ^ 8))
  (if neg then ['-'] else []) ++ natToString (n / 10 ^ 8) ++
    (if frac.isEmpty then [] else '.' :: frac)

/-- The rendering of a whole value `(-1)^neg * v`. -/
def renderWhole (neg : Bool) (v : Nat) : Str :=
  if v = 0 then ['0'] else (if neg then ['-'] else []) ++ natToString v

/-- The rendering of a Number that is already rounded: a whole one without a
decimal part, any other rounded to 8 fraction digits (a tie away from zero),
trailing zeros trimmed. -/
def formatRounding : JSNum → Str
  | .fin neg a =>
      if a % unitScale = 0 then renderWhole neg (a / unitScale)
      else renderScaled neg ((2 * a * 10 ^ 8 + unitScale) / (2 * unitScale))
  | x => numberToString x

/-- Whether the Number is finite and below `2^53` in magnitude. -/
def belowTwo53 : JSNum → Bool
  | .fin _ a => a < 2 ^ 53 * unitScale
  | _ => false

/-- The value `x` rounded to 10 decimal places in exact arithmetic, as the
count `|r| * 10^10` of its rounding `r`: the integer nearest to `x * 10^10`,
on a tie the one towards `+∞` (the rule of `Math.round`). The Number `x` has
the sign `neg` and the magnitude `a / 2^1074`. -/
def exactScaled (neg : Bool) (a : Nat) : Nat :=
  if neg then (2 * (a * 10 ^ 10) + unitScale - 1) / (2 * unitScale)
  else (2 * (a * 10 ^ 10) + unitScale) / (2 * unitScale)

/-- The rendering the claim words, in exact arithmetic: the value rounded to
10 decimal places is printed without a decimal part if it is whole, and
otherwise truncated to 8 fraction digits, the trailing zeros trimmed. -/
def formatClaimed : JSNum → Str
  | .fin neg a =>
      let k := exactScaled neg a
      if k % 10 ^ 10 = 0 then renderWhole neg (k / 10 ^ 10)
      else renderScaled neg (k / 100)
  | x => numberToString x

/-- The rendering of the amended claim, in exact arithmetic: the value rounded
to 10 decimal places is printed without a decimal part if it is whole, and
otherwise rounded to 8 fraction digits (a tie away from zero), the trailing
zeros trimmed. -/
def formatExact : JSNum → Str
  | .fin neg a =>
      let k := exactScaled neg a
      if k % 10 ^ 10 = 0 then renderWhole neg (k / 10 ^ 10)
      else renderScaled neg ((k + 50) / 100)
  | x => numberToString x

/-- Whether the exact product `|x| * 10^10` is itself a binary64 number: it
has at most 53 significant bits. -/
def productExact (a : Nat) : Bool :=
  a * 10 ^ 10 % 2 ^ (bitLen (a * 10 ^ 10) - 53) == 0

/-- Whether the exact product `|x| * 10^10` lies farther than half a unit in
the last place (of the binary64 numbers of its size) from every `n + 1/2`,
`n` an integer: `t` is twice its distance from the next `n + 1/2` below and
`u` is the unit in the last place. -/
def productClear (a : Nat) : Bool :=
  let t := (2 * (a * 10 ^ 10) + unitScale) % (2 * unitScale)
  let u := 2 ^ (bitLen (a * 10 ^ 10) - 53)
  decide (u < t) && decide (t + u < 2 * unitScale)

/-- Whether, in case the value rounded to 10 decimal places lies halfway
between two decimals of 8 fraction digits (its count ends in `50`), the
binary64 number nearest to it is not below it in magnitude. -/
def tieKept (neg : Bool) (a : Nat) : Bool :=
  let k := exactScaled neg a
  k % 100 != 50 ||
    decide (k * unitScale ≤ roundToDouble (k * unitScale) (10 ^ 10) * 10 ^ 10)

/-- The results on which the binary64 arithmetic of `formatResult` cannot
change a digit: `|x| * 10^10 < 2^53`, the product `x * 10^10` is exact or
clear of the values `n + 1/2`, and a tie at the eighth fraction digit is not
rounded down by the division. -/
def noiseFree : JSNum → Bool
  | .fin neg a =>
      decide (a * 10 ^ 10 < 2 ^ 53 * unitScale) && (productExact a || productClear a) &&
        tieKept neg a
  | _ => false

/-- A sequence of clicks: `1 2 + + . 5 . DEL * AC 7 %`. -/
def sampleClicks : List (Str × Str) :=
  [['1'], ['2'], ['+'], ['+'], ['.'], ['5'], ['.'], "DEL".toList, ['*'], "AC".toList,
    ['7'], ['%']].map fun t => ("12:00".toList, t)

/-! ## Theorems -/

theorem hasAdjacent_cons_cons (p : Char → Bool) (a b : Char) (rest : Str) :
    hasAdjacent p (a :: b :: rest) = ((p a && p b) || hasAdjacent p (b :: rest)) := rfl

theorem lastSatisfies_cons_cons (p : Char → Bool) (a b : Char) (rest : Str) :
    lastSatisfies p (a :: b :: rest) = lastSatisfies p (b :: rest) := by
  simp [lastSatisfies, List.getLast?_cons_cons]

theorem hasAdjacent_append_single (p : Char → Bool) (s : Str) (c : Char) :
    hasAdjacent p (s ++ [c]) = (hasAdjacent p s || (lastSatisfies p s && p c)) := by
  induction s with
  | nil => simp [hasAdjacent, lastSatisfies]
  | cons a t ih =>
    cases t with
    | nil => simp [hasAdjacent, lastSatisfies]
    | cons b rest =>
      have ih2 : hasAdjacent p (b :: (rest ++ [c])) =
          (hasAdjacent p (b :: rest) || (lastSatisfies p (b :: rest) && p c)) := by
        simpa using ih
      simp only [List.cons_append, hasAdjacent_cons_cons, lastSatisfies_cons_cons, ih2,
        Bool.or_assoc]

theorem hasAdjacent_dropLast (p : Char → Bool) (s : Str) (h : hasAdjacent p s = false) :
    hasAdjacent p s.dropLast = false := by
  rcases List.eq_nil_or_concat s with rfl | ⟨t, c, rfl⟩
  · rfl
  · simp only [List.concat_eq_append] at h ⊢
    rw [List.dropLast_concat]
    rw [hasAdjacent_append_single] at h
    simp only [Bool.or_eq_false_iff] at h
    exact h.1

theorem lastChar_eq (s : Str) :
    lastChar s = match s.getLast? with
      | some l => [l]
      | none => [] := by
  rcases List.eq_nil_or_concat s with rfl | ⟨t, c, rfl⟩
  · rfl
  · simp [lastChar, List.concat_eq_append]

theorem operators_contains_single (c : Char) :
    operators.contains [c] = isOperatorChar c := by
  simp [operators, isOperatorChar, List.contains_cons, Bool.or_assoc]

theorem operators_contains_lastChar (s : Str) :
    operators.contains (lastChar s) = lastSatisfies isOperatorChar s := by
  rw [lastChar_eq]
  unfold lastSatisfies
  cases s.getLast? with
  | none => rfl
  | some l => exact operators_contains_single l

theorem showNotification_output (m : Str) (c : Calculator) :
    (showNotification m c).output = c.output := rfl

theorem addToDisplay_output (v : Str) (c : Calculator) :
    (addToDisplay v c).output = if c.output.length ≥ 30 then c.output else c.output ++ v := by
  unfold addToDisplay
  split <;> rfl

theorem clearDisplay_output (c : Calculator) : (clearDisplay c).output = [] := rfl

theorem deleteLast_output (c : Calculator) : (deleteLast c).output = c.output.dropLast := rfl

/-- The buffer after a click on a token other than `=`. -/
theorem handleButtonClick_output (h : Host) (ts t : Str) (c : Calculator)
    (ht : t ≠ "=".toList) :
    (handleButtonClick h ts t c).output =
      if operators.contains t && lastSatisfies isOperatorChar c.output then c.output
      else if t = ['.'] && (currentNumber c.output).contains '.' then c.output
      else if t = "AC".toList then []
      else if t = "DEL".toList then c.output.dropLast
      else if c.output.length ≥ 30 then c.output
      else c.output ++ t := by
  unfold handleButtonClick
  rw [operators_contains_lastChar]
  split_ifs <;>
    simp_all only [showNotification_output, clearDisplay_output, deleteLast_output,
      addToDisplay_output, if_true, if_false, not_true_eq_false, not_false_eq_true]

theorem editToken_ne_equals (t : Str) (ht : t ∈ editTokens) : t ≠ "=".toList := by
  rintro rfl
  revert ht
  decide

theorem editToken_single (t : Str) (ht : t ∈ editTokens) (h1 : t ≠ "AC".toList)
    (h2 : t ≠ "DEL".toList) : ∃ d, t = [d] := by
  simp only [editTokens, List.mem_cons, List.mem_singleton] at ht
  rcases ht with rfl | rfl | rfl | rfl | rfl | rfl | rfl | rfl | rfl | rfl | rfl | rfl |
    rfl | rfl | rfl | rfl | rfl | ht
  all_goals first
    | exact ⟨_, rfl⟩
    | exact absurd rfl h1
    | (simp at ht; exact absurd ht h2)

/-- One edit click keeps the buffer within 30 characters and free of adjacent
operators. -/
theorem handleButtonClick_keeps_bounds (h : Host) (ts t : Str) (c : Calculator)
    (ht : t ∈ editTokens) (hl : c.output.length ≤ 30)
    (ha : hasAdjacent isOperatorChar c.output = false) :
    (handleButtonClick h ts t c).output.length ≤ 30 ∧
      hasAdjacent isOperatorChar (handleButtonClick h ts t c).output = false := by
  rw [handleButtonClick_output h ts t c (editToken_ne_equals t ht)]
  split_ifs with h1 h2 h3 h4 h5
  · exact ⟨hl, ha⟩
  · exact ⟨hl, ha⟩
  · exact ⟨by simp, rfl⟩
  · exact ⟨by simp; omega, hasAdjacent_dropLast _ _ ha⟩
  · exact ⟨hl, ha⟩
  · obtain ⟨d, rfl⟩ := editToken_single t ht h3 h4
    rw [operators_contains_single] at h1
    refine ⟨by simp; omega, ?_⟩
    rw [hasAdjacent_append_single, ha]
    cases hd : isOperatorChar d <;> cases hs : lastSatisfies isOperatorChar c.output <;> simp_all

theorem clicks_cons (h : Host) (e : Str × Str) (events : List (Str × Str)) (c : Calculator) :
    clicks h (e :: events) c = clicks h events (handleButtonClick h e.1 e.2 c) := rfl

theorem clicks_keep_bounds (h : Host) (events : List (Str × Str)) :
    ∀ c : Calculator, (∀ e ∈ events, e.2 ∈ editTokens) → c.output.length ≤ 30 →
      hasAdjacent isOperatorChar c.output = false →
      (clicks h events c).output.length ≤ 30 ∧
        hasAdjacent isOperatorChar (clicks h events c).output = false := by
  induction events with
  | nil => intro c _ hl ha; exact ⟨hl, ha⟩
  | cons e rest ih =>
    intro c hev hl ha
    rw [clicks_cons]
    have hstep := handleButtonClick_keeps_bounds h e.1 e.2 c (hev e (List.mem_cons_self _ _)) hl ha
    exact ih _ (fun e1 he1 => hev e1 (List.mem_cons_of_mem _ he1)) hstep.1 hstep.2

/-- C1: starting from the empty buffer, after any sequence of clicks on
digits, operators, the point, `AC` and `DEL`, the buffer has at most 30
characters and no two adjacent characters that are both operators. -/
theorem buffer_length_and_operators_invariant (h : Host) (events : List (Str × Str))
    (c : Calculator) (hc : c.output = []) (hev : ∀ e ∈ events, e.2 ∈ editTokens) :
    (clicks h events c).output.length ≤ 30 ∧
      hasAdjacent isOperatorChar (clicks h events c).output = false :=
  clicks_keep_bounds h events c hev (by simp [hc]) (by simp [hc, hasAdjacent])

/-- An instance of C1: the clicks `1 2 + + . 5 . DEL * AC 7 %`. -/
theorem buffer_length_and_operators_invariant_witness :
    (clicks exampleHost sampleClicks (stateWith [] [])).output.length ≤ 30 ∧
      hasAdjacent isOperatorChar (clicks exampleHost sampleClicks (stateWith [] [])).output
        = false :=
  buffer_length_and_operators_invariant exampleHost sampleClicks (stateWith [] []) rfl
    (by decide)

theorem splitOn_cons_true (p : Char → Bool) (a : Char) (s : Str) (h : p a = true) :
    splitOn p (a :: s) = [] :: splitOn p s := by
  simp [splitOn, h]

theorem splitOn_exists_cons (p : Char → Bool) (s : Str) : ∃ x xs, splitOn p s = x :: xs := by
  induction s with
  | nil => exact ⟨[], [], rfl⟩
  | cons a t ih =>
    obtain ⟨x, xs, hx⟩ := ih
    by_cases h : p a = true
    · exact ⟨[], splitOn p t, splitOn_cons_true p a t h⟩
    · exact ⟨a :: x, xs, by simp [splitOn, h, hx]⟩

theorem splitOn_cons_false (p : Char → Bool) (a : Char) (s : Str) (x : Str) (xs : List Str)
    (h : p a = false) (hx : splitOn p s = x :: xs) :
    splitOn p (a :: s) = (a :: x) :: xs := by
  simp [splitOn, h, hx]

theorem currentNumber_eq (s : Str) : currentNumber s = lastRun isOperatorChar s := rfl

theorem splitOn_eq_dropLast_append (p : Char → Bool) (s : Str) :
    splitOn p s = (splitOn p s).dropLast ++ [lastRun p s] := by
  obtain ⟨x, xs, hx⟩ := splitOn_exists_cons p s
  unfold lastRun
  rw [hx]
  have hne : x :: xs ≠ [] := by simp
  rw [List.getLast?_eq_getLast _ hne]
  simp [List.dropLast_append_getLast]

theorem splitOn_append_single (p : Char → Bool) (s : Str) (c : Char) :
    splitOn p (s ++ [c]) =
      if p c then splitOn p s ++ [[]]
      else (splitOn p s).dropLast ++ [lastRun p s ++ [c]] := by
  induction s with
  | nil =>
    by_cases hc : p c = true
    · simp [splitOn, hc]
    · simp [splitOn, hc, lastRun]
  | cons a t ih =>
    obtain ⟨x, xs, hx⟩ := splitOn_exists_cons p t
    by_cases ha : p a = true
    · rw [List.cons_append, splitOn_cons_true p a _ ha, splitOn_cons_true p a _ ha, ih]
      by_cases hc : p c = true
      · simp [hc]
      · simp [hc, lastRun, splitOn_cons_true p a _ ha, hx]
    · have ha2 : p a = false := by simpa using ha
      by_cases hc : p c = true
      · rw [if_pos hc] at ih ⊢
        rw [hx] at ih
        rw [List.cons_append, splitOn_cons_false p a _ x (xs ++ [[]]) ha2 (by simpa using ih),
          splitOn_cons_false p a t x xs ha2 hx]
        simp
      · rw [if_neg hc] at ih ⊢
        cases xs with
        | nil =>
          have ih2 : splitOn p (t ++ [c]) = (x ++ [c]) :: [] := by
            rw [ih, hx]; simp [lastRun, hx]
          rw [List.cons_append, splitOn_cons_false p a _ _ _ ha2 ih2,
            splitOn_cons_false p a t x [] ha2 hx]
          simp [lastRun, splitOn_cons_false p a t x [] ha2 hx]
        | cons y ys =>
          have ih2 : splitOn p (t ++ [c]) =
              x :: ((y :: ys).dropLast ++ [lastRun p t ++ [c]]) := by
            rw [ih, hx]; simp
          rw [List.cons_append, splitOn_cons_false p a _ _ _ ha2 ih2,
            splitOn_cons_false p a t x (y :: ys) ha2 hx]
          simp [lastRun, splitOn_cons_false p a t x (y :: ys) ha2 hx, hx]

theorem runsHaveOnePoint_nil : runsHaveOnePoint [] := by
  intro run hrun
  simp [splitOn] at hrun
  simp [hrun]

theorem runsHaveOnePoint_of_append (s : Str) (c : Char) (h : runsHaveOnePoint (s ++ [c])) :
    runsHaveOnePoint s := by
  intro run hrun
  unfold runsHaveOnePoint at h
  rw [splitOn_append_single] at h
  by_cases hc : isOperatorChar c = true
  · rw [if_pos hc] at h
    exact h run (List.mem_append_left _ hrun)
  · rw [if_neg hc] at h
    rw [splitOn_eq_dropLast_append] at hrun
    rcases List.mem_append.1 hrun with h1 | h1
    · exact h run (List.mem_append_left _ h1)
    · have h2 : run = lastRun isOperatorChar s := by simpa using h1
      have h3 := h (lastRun isOperatorChar s ++ [c]) (by simp)
      rw [h2]
      have h4 : (lastRun isOperatorChar s).count '.' ≤
          (lastRun isOperatorChar s ++ [c]).count '.' := by
        rw [List.count_append]; omega
      omega

theorem runsHaveOnePoint_dropLast (s : Str) (h : runsHaveOnePoint s) :
    runsHaveOnePoint s.dropLast := by
  rcases List.eq_nil_or_concat s with rfl | ⟨t, c, rfl⟩
  · exact h
  · simp only [List.concat_eq_append] at h ⊢
    rw [List.dropLast_concat]
    exact runsHaveOnePoint_of_append t c h

theorem runsHaveOnePoint_append (s : Str) (c : Char) (h : runsHaveOnePoint s)
    (hc : c = '.' → (currentNumber s).contains '.' = false) :
    runsHaveOnePoint (s ++ [c]) := by
  intro run hrun
  rw [splitOn_append_single] at hrun
  by_cases hop : isOperatorChar c = true
  · rw [if_pos hop] at hrun
    rcases List.mem_append.1 hrun with h1 | h1
    · exact h run h1
    · have h2 : run = [] := by simpa using h1
      simp [h2]
  · rw [if_neg hop] at hrun
    rcases List.mem_append.1 hrun with h1 | h1
    · exact h run (List.mem_of_mem_dropLast h1)
    · have h2 : run = lastRun isOperatorChar s ++ [c] := by simpa using h1
      have hlast : lastRun isOperatorChar s ∈ splitOn isOperatorChar s := by
        rw [splitOn_eq_dropLast_append isOperatorChar s]
        simp
      have h3 := h _ hlast
      rw [h2, List.count_append]
      by_cases hdot : c = '.'
      · have h4 := hc hdot
        rw [currentNumber_eq] at h4
        have h5 : (lastRun isOperatorChar s).count '.' = 0 := by
          rw [List.count_eq_zero]
          simpa using h4
        rw [h5, hdot]
        simp
      · have h6 : [c].count '.' = 0 := by
          rw [List.count_eq_zero]
          simpa using fun hh : '.' = c => hdot hh.symm
        omega

/-- One edit click keeps every numeric run at one point at most. -/
theorem handleButtonClick_keeps_points (h : Host) (ts t : Str) (c : Calculator)
    (ht : t ∈ editTokens) (hr : runsHaveOnePoint c.output) :
    runsHaveOnePoint (handleButtonClick h ts t c).output := by
  rw [handleButtonClick_output h ts t c (editToken_ne_equals t ht)]
  split_ifs with h1 h2 h3 h4 h5
  · exact hr
  · exact hr
  · exact runsHaveOnePoint_nil
  · exact runsHaveOnePoint_dropLast _ hr
  · exact hr
  · obtain ⟨d, rfl⟩ := editToken_single t ht h3 h4
    apply runsHaveOnePoint_append _ _ hr
    intro hd
    subst hd
    simpa using h2

theorem clicks_keep_points (h : Host) (events : List (Str × Str)) :
    ∀ c : Calculator, (∀ e ∈ events, e.2 ∈ editTokens) → runsHaveOnePoint c.output →
      runsHaveOnePoint (clicks h events c).output := by
  induction events with
  | nil => intro c _ hr; exact hr
  | cons e rest ih =>
    intro c hev hr
    rw [clicks_cons]
    exact ih _ (fun e1 he1 => hev e1 (List.mem_cons_of_mem _ he1))
      (handleButtonClick_keeps_points h e.1 e.2 c (hev e (List.mem_cons_self _ _)) hr)

/-- C2: starting from the empty buffer, after any sequence of clicks on
digits, operators, the point, `AC` and `DEL`, every numeric run of the buffer
(a part of the buffer split at the operators) has at most one point. -/
theorem numeric_runs_have_one_point (h : Host) (events : List (Str × Str))
    (c : Calculator) (hc : c.output = []) (hev : ∀ e ∈ events, e.2 ∈ editTokens) :
    ∀ run ∈ splitOn isOperatorChar (clicks h events c).output, run.count '.' ≤ 1 :=
  clicks_keep_points h events c hev (by rw [hc]; exact runsHaveOnePoint_nil)

/-- An instance of C2: the clicks `1 2 + + . 5 . DEL * AC 7 %`. -/
theorem numeric_runs_have_one_point_witness :
    (splitOn isOperatorChar (clicks exampleHost sampleClicks (stateWith [] [])).output).all
      (fun run => decide (run.count '.' ≤ 1)) = true :=
  List.all_eq_true.2 fun run hrun =>
    decide_eq_true
      (numeric_runs_have_one_point exampleHost sampleClicks (stateWith [] []) rfl (by decide)
        run hrun)

theorem hasAdjacent_cons (p : Char → Bool) (a : Char) (s : Str) :
    hasAdjacent p (a :: s) = ((p a && headSatisfies p s) || hasAdjacent p s) := by
  cases s with
  | nil => simp [hasAdjacent, headSatisfies]
  | cons b rest => simp [hasAdjacent, headSatisfies]

theorem replaceAll_of_not_mem (c : Char) (r : Str) (s : Str) (h : c ∉ s) :
    replaceAll c r s = s := by
  induction s with
  | nil => rfl
  | cons x xs ih =>
    have hx : x ≠ c := fun e => h (by simp [e])
    have hxs : c ∉ xs := fun e => h (List.mem_cons_of_mem _ e)
    simp [replaceAll, hx, ih hxs]

theorem headSatisfies_replacePercent (s : Str)
    (h : headSatisfies isArithChar (replaceAll '%' "/100".toList s) = true) :
    headSatisfies isOperatorChar s = true := by
  cases s with
  | nil => simp [replaceAll, headSatisfies] at h
  | cons x xs =>
    by_cases hx : x = '%'
    · subst hx; rfl
    · simp only [replaceAll, hx, if_false, List.singleton_append, headSatisfies] at h
      simp only [headSatisfies, isOperatorChar]
      simp only [isArithChar] at h
      simp [h]

theorem hasAdjacent_replacePercent (s : Str) (h : hasAdjacent isOperatorChar s = false) :
    hasAdjacent isArithChar (replaceAll '%' "/100".toList s) = false := by
  induction s with
  | nil => rfl
  | cons x xs ih =>
    rw [hasAdjacent_cons] at h
    simp only [Bool.or_eq_false_iff] at h
    have ih2 := ih h.2
    by_cases hx : x = '%'
    · subst hx
      have e : replaceAll '%' "/100".toList ('%' :: xs) =
          '/' :: '1' :: '0' :: '0' :: replaceAll '%' "/100".toList xs := by
        simp [replaceAll]
      rw [e]
      simp only [hasAdjacent_cons, headSatisfies, ih2]
      simp [isArithChar]
    · have e : replaceAll '%' "/100".toList (x :: xs) =
          x :: replaceAll '%' "/100".toList xs := by
        simp [replaceAll, hx]
      rw [e, hasAdjacent_cons, ih2]
      cases hh : headSatisfies isArithChar (replaceAll '%' "/100".toList xs)
      · simp
      · have h3 := headSatisfies_replacePercent xs hh
        have h4 : isOperatorChar x = false := by
          have := h.1
          rw [h3] at this
          simpa using this
        have h5 : isArithChar x = false := by
          simp only [isOperatorChar, Bool.or_eq_false_iff] at h4
          simp only [isArithChar, Bool.or_eq_false_iff]
          exact h4.1
        simp [h5]

theorem translate_of_alphabet (b : Str) (halpha : ∀ ch ∈ b, ch ∈ bufferAlphabet) :
    translate b = replaceAll '%' "/100".toList b := by
  have h1 : '÷' ∉ b := fun hm => absurd (halpha _ hm) (by decide)
  have h2 : '×' ∉ b := fun hm => absurd (halpha _ hm) (by decide)
  have h3 : '−' ∉ b := fun hm => absurd (halpha _ hm) (by decide)
  unfold translate
  rw [replaceAll_of_not_mem _ _ _ h1, replaceAll_of_not_mem _ _ _ h2,
    replaceAll_of_not_mem _ _ _ h3]

theorem invalidExpression_translate (b : Str) (halpha : ∀ ch ∈ b, ch ∈ bufferAlphabet)
    (hadj : hasAdjacent isOperatorChar b = false) :
    invalidExpression (translate b) = false := by
  rw [translate_of_alphabet b halpha]
  exact hasAdjacent_replacePercent b hadj

theorem editToken_alphabet (t : Str) (ht : t ∈ editTokens) (h1 : t ≠ "AC".toList)
    (h2 : t ≠ "DEL".toList) : ∀ ch ∈ t, ch ∈ bufferAlphabet := by
  simp only [editTokens, List.mem_cons, List.mem_singleton] at ht
  rcases ht with rfl | rfl | rfl | rfl | rfl | rfl | rfl | rfl | rfl | rfl | rfl | rfl |
    rfl | rfl | rfl | rfl | rfl | ht
  all_goals first
    | decide
    | exact absurd rfl h1
    | (simp at ht; exact absurd ht h2)

theorem handleButtonClick_keeps_alphabet (h : Host) (ts t : Str) (c : Calculator)
    (ht : t ∈ editTokens) (hr : ∀ ch ∈ c.output, ch ∈ bufferAlphabet) :
    ∀ ch ∈ (handleButtonClick h ts t c).output, ch ∈ bufferAlphabet := by
  rw [handleButtonClick_output h ts t c (editToken_ne_equals t ht)]
  split_ifs with h1 h2 h3 h4 h5
  · exact hr
  · exact hr
  · intro ch hch; simp at hch
  · intro ch hch; exact hr ch (List.mem_of_mem_dropLast hch)
  · exact hr
  · intro ch hch
    rcases List.mem_append.1 hch with h6 | h6
    · exact hr ch h6
    · exact editToken_alphabet t ht h3 h4 ch h6

theorem clicks_keep_alphabet (h : Host) (events : List (Str × Str)) :
    ∀ c : Calculator, (∀ e ∈ events, e.2 ∈ editTokens) →
      (∀ ch ∈ c.output, ch ∈ bufferAlphabet) →
      ∀ ch ∈ (clicks h events c).output, ch ∈ bufferAlphabet := by
  induction events with
  | nil => intro c _ hr; exact hr
  | cons e rest ih =>
    intro c hev hr
    rw [clicks_cons]
    exact ih _ (fun e1 he1 => hev e1 (List.mem_cons_of_mem _ he1))
      (handleButtonClick_keeps_alphabet h e.1 e.2 c (hev e (List.mem_cons_self _ _)) hr)

/-- C10: for a buffer over `0-9 . + - * / %` with no two adjacent operators,
the expression `calculateResult` builds (each `%` replaced by `/100`) has no
two adjacent characters among `+ - * /`, so the `Invalid expression` test does
not reject it; every buffer typed from the empty one with digits, operators,
the point, `AC` and `DEL` is such a buffer. -/
theorem translated_buffer_passes_validation :
    (∀ b : Str, (∀ ch ∈ b, ch ∈ bufferAlphabet) → hasAdjacent isOperatorChar b = false →
      invalidExpression (translate b) = false) ∧
    (∀ (h : Host) (events : List (Str × Str)) (c : Calculator), c.output = [] →
      (∀ e ∈ events, e.2 ∈ editTokens) →
      invalidExpression (translate (clicks h events c).output) = false) := by
  refine ⟨invalidExpression_translate, ?_⟩
  intro h events c hc hev
  apply invalidExpression_translate
  · exact clicks_keep_alphabet h events c hev (by simp [hc])
  · exact (clicks_keep_bounds h events c hev (by simp [hc]) (by simp [hc, hasAdjacent])).2

/-- An instance of C10: the buffer `5%3+2` is translated to `5/1003+2`, which
passes the test. -/
theorem translated_buffer_passes_validation_witness :
    invalidExpression (translate "5%3+2".toList) = false :=
  translated_buffer_passes_validation.1 "5%3+2".toList (by decide) (by decide)

theorem calculationError_fields (c : Calculator) :
    (calculationError c).output = "Error".toList ∧ (calculationError c).history = c.history ∧
      (calculationError c).calcHistory = c.calcHistory ∧
      (calculationError c).historyList = c.historyList :=
  ⟨rfl, rfl, rfl, rfl⟩

/-- C4: when the evaluation of a non-empty buffer fails (the translated
expression has two adjacent characters among `+ - * /`, or evaluating it
throws, or its value is not finite), `calculateResult` sets the buffer to
`Error` and leaves the history log, the stored history and the rendered list
as they were. -/
theorem failed_evaluation_sets_error (h : Host) (ts : Str) (c : Calculator)
    (hne : c.output ≠ [])
    (hfail : invalidExpression (translate c.output) = true ∨
      h.evalJS (translate c.output) = none ∨
      ∃ x, h.evalJS (translate c.output) = some x ∧ isFinite x = false) :
    (calculateResult h ts c).output = "Error".toList ∧
      (calculateResult h ts c).history = c.history ∧
      (calculateResult h ts c).calcHistory = c.calcHistory ∧
      (calculateResult h ts c).historyList = c.historyList := by
  have hne2 : c.output.isEmpty = false := by
    cases hc : c.output with
    | nil => exact absurd hc hne
    | cons a t => rfl
  unfold calculateResult
  rw [hne2]
  simp only [Bool.false_eq_true, if_false]
  rcases hfail with h1 | h1 | ⟨x, h1, h2⟩
  · rw [if_pos h1]; exact calculationError_fields c
  · split
    · exact calculationError_fields c
    · rw [h1]; exact calculationError_fields c
  · split
    · exact calculationError_fields c
    · rw [h1]; simp only [h2, Bool.not_false, if_true]; exact calculationError_fields c

/-- An instance of C4: the buffer `5/0` evaluates to `Infinity`. -/
theorem failed_evaluation_sets_error_witness :
    (calculateResult exampleHost "12:00".toList (stateWith "5/0".toList [])).output
        = "Error".toList ∧
      (calculateResult exampleHost "12:00".toList (stateWith "5/0".toList [])).history = [] ∧
      (calculateResult exampleHost "12:00".toList (stateWith "5/0".toList [])).calcHistory
        = none ∧
      (calculateResult exampleHost "12:00".toList (stateWith "5/0".toList [])).historyList = [] :=
  failed_evaluation_sets_error exampleHost "12:00".toList (stateWith "5/0".toList [])
    (by decide) (Or.inr (Or.inr ⟨JSNum.inf false, by decide, rfl⟩))

theorem dropLast_eq_take_ten {α : Type} (l : List α) (hl : l.length ≤ 11) :
    (if l.length > 10 then l.dropLast else l) = l.take 10 := by
  split_ifs with h1
  · rw [List.dropLast_eq_take]
    have : l.length - 1 = 10 := by omega
    rw [this]
  · rw [List.take_of_length_le (by omega)]

theorem renderThrows_historyItem (e r ts : Str) : renderThrows (historyItem e r ts) = false :=
  rfl

/-- A call of `saveToHistory` returns, and what it leaves. -/
theorem saveToHistory_ok (h : Host) (ts e r : Str) (c : Calculator) :
    ∃ c1, saveToHistory h ts e r c = .ok c1 ∧
      c1.history =
        (if (historyItem e r ts :: c.history).length > 10
          then (historyItem e r ts :: c.history).dropLast
          else historyItem e r ts :: c.history) ∧
      c1.calcHistory = some (h.stringify c1.history) ∧
      c1.historyList = historyItem e r ts :: c.historyList := by
  unfold saveToHistory addHistoryItem
  simp only [renderThrows_historyItem, Bool.false_eq_true, if_false]
  by_cases hlen : (historyItem e r ts :: c.history).length > 10
  · simp only [hlen, if_true]
    exact ⟨_, rfl, rfl, rfl, rfl⟩
  · simp only [hlen, if_false]
    exact ⟨_, rfl, rfl, rfl, rfl⟩

theorem saveToHistory_history (h : Host) (ts e r : Str) (c : Calculator)
    (hl : c.history.length ≤ 10) :
    ∃ c1, saveToHistory h ts e r c = .ok c1 ∧
      c1.history = (historyItem e r ts :: c.history).take 10 ∧
      c1.calcHistory = some (h.stringify ((historyItem e r ts :: c.history).take 10)) := by
  obtain ⟨c1, h1, h2, h3, _⟩ := saveToHistory_ok h ts e r c
  have key := dropLast_eq_take_ten (historyItem e r ts :: c.history) (by simp; omega)
  rw [key] at h2
  exact ⟨c1, h1, h2, by rw [h3, h2]⟩

/-- The state after a successful evaluation. -/
theorem calculateResult_success (h : Host) (ts : Str) (c : Calculator) (x : JSNum)
    (hne : c.output ≠ []) (hvalid : invalidExpression (translate c.output) = false)
    (heval : h.evalJS (translate c.output) = some x) (hfin : isFinite x = true) :
    ∃ c1, saveToHistory h ts c.output (formatResult x) c = .ok c1 ∧
      calculateResult h ts c =
        { updateDisplay { c1 with output := formatResult x } with
          historyDisplay := formatResult x ++ " = ".toList ++ formatResult x } := by
  have hne2 : c.output.isEmpty = false := by
    cases hc : c.output with
    | nil => exact absurd hc hne
    | cons a t => rfl
  obtain ⟨c1, h1, _⟩ := saveToHistory_ok h ts c.output (formatResult x) c
  refine ⟨c1, h1, ?_⟩
  unfold calculateResult
  rw [hne2]
  simp only [Bool.false_eq_true, if_false, hvalid, heval, hfin, Bool.not_true, h1]
  rfl

/-- C5: when the evaluation of the buffer `b` succeeds with formatted result
`r` and the history log has at most 10 entries, `calculateResult` leaves the
buffer equal to `r` and the history log equal to the first 10 entries of the
new entry, the object with `expression` the buffer `b` as it was, `result` the
string `r` and `timestamp` the reading of the clock, followed by the old log,
and writes that list to storage. -/
theorem successful_evaluation_records_entry (h : Host) (ts : Str) (c : Calculator) (x : JSNum)
    (hne : c.output ≠ []) (hvalid : invalidExpression (translate c.output) = false)
    (heval : h.evalJS (translate c.output) = some x) (hfin : isFinite x = true)
    (hlen : c.history.length ≤ 10) :
    (calculateResult h ts c).output = formatResult x ∧
      (calculateResult h ts c).history =
        (JSON.obj [(utf16 "expression".toList, .str (utf16 c.output)),
            (utf16 "result".toList, .str (utf16 (formatResult x))),
            (utf16 "timestamp".toList, .str (utf16 ts))] :: c.history).take 10 ∧
      (calculateResult h ts c).calcHistory =
        some (h.stringify
          ((JSON.obj [(utf16 "expression".toList, .str (utf16 c.output)),
            (utf16 "result".toList, .str (utf16 (formatResult x))),
            (utf16 "timestamp".toList, .str (utf16 ts))] :: c.history).take 10)) := by
  obtain ⟨c1, h1, h2⟩ := calculateResult_success h ts c x hne hvalid heval hfin
  obtain ⟨c2, h3, h4, h5⟩ := saveToHistory_history h ts c.output (formatResult x) c hlen
  rw [h1] at h3
  have e : c1 = c2 := by injection h3
  subst e
  rw [h2]
  exact ⟨rfl, h4, h5⟩

/-- An instance of C5: `10/4` on a full log; the new entry has expression
`10/4` and result `2.5`, and the oldest of the ten entries is dropped. -/
theorem successful_evaluation_records_entry_witness :
    (calculateResult exampleHost "12:00".toList (stateWith "10/4".toList fullLog)).output
        = formatResult (fdiv (ofNat 10) (ofNat 4)) ∧
      (calculateResult exampleHost "12:00".toList (stateWith "10/4".toList fullLog)).history =
        (JSON.obj [(utf16 "expression".toList, .str (utf16 "10/4".toList)),
            (utf16 "result".toList, .str (utf16 (formatResult (fdiv (ofNat 10) (ofNat 4))))),
            (utf16 "timestamp".toList, .str (utf16 "12:00".toList))] :: fullLog).take 10 ∧
      (calculateResult exampleHost "12:00".toList (stateWith "10/4".toList fullLog)).calcHistory =
        some (exampleHost.stringify
          ((JSON.obj [(utf16 "expression".toList, .str (utf16 "10/4".toList)),
            (utf16 "result".toList, .str (utf16 (formatResult (fdiv (ofNat 10) (ofNat 4))))),
            (utf16 "timestamp".toList, .str (utf16 "12:00".toList))] :: fullLog).take 10)) :=
  successful_evaluation_records_entry exampleHost "12:00".toList
    (stateWith "10/4".toList fullLog) (fdiv (ofNat 10) (ofNat 4))
    (by decide) (by decide) (by decide) (by decide) (by decide)

/-- C8 (the code at the input `2+2`): after the evaluation the last-computation
line reads `4 = 4`: the buffer has already been replaced by the result when
the line is written, where the claim has `2+2 = 4`. -/
theorem last_computation_line_repeats_result :
    (calculateResult exampleHost "12:00".toList (stateWith "2+2".toList [])).historyDisplay
      = "4 = 4".toList := by
  decide

theorem saveToHistory_length (h : Host) (ts e r : Str) (c : Calculator)
    (hl : c.history.length ≤ 10) :
    ((HistoryOp.save ts e r).run h c).history.length ≤ 10 := by
  obtain ⟨c1, h1, h2, _⟩ := saveToHistory_history h ts e r c hl
  have e : (HistoryOp.save ts e r).run h c = c1 := by
    show (match saveToHistory h ts e r c with
      | .ok c1 => c1
      | .error c1 => c1) = c1
    rw [h1]
  rw [e, h2]
  simp

theorem runHistoryOps_length (h : Host) (ops : List HistoryOp) :
    ∀ c : Calculator, c.history.length ≤ 10 → (runHistoryOps h ops c).history.length ≤ 10 := by
  induction ops with
  | nil => intro c hc; exact hc
  | cons op rest ih =>
    intro c hc
    have hstep : (op.run h c).history.length ≤ 10 := by
      cases op with
      | save ts e r => exact saveToHistory_length h ts e r c hc
      | clear => simp [HistoryOp.run, clearHistory, saveHistory, showNotification]
    exact ih _ hstep

/-- C6 (the code at a stored log of eleven entries): the log is loaded as it
is, and after a further calculation, where `saveToHistory` pops one entry, it
still has eleven entries, not the 10 of the claim and of the comment `Keep
only last 10 calculations`. -/
theorem loaded_log_can_exceed_ten :
    (startup blankPage (some elevenEntries)).map (fun c =>
      (c.history.length,
        (runHistoryOps exampleHost [.save "12:01".toList "1+1".toList "2".toList] c).history.length))
      = some (11, 11) := by
  decide

theorem forEachAdd_some (items : List JSON) :
    ∀ c c1 : Calculator, forEachAdd items c = some c1 →
      c1.history = c.history ∧ c1.historyList = items.reverse ++ c.historyList ∧
      items.any renderThrows = false := by
  induction items with
  | nil =>
    intro c c1 hc
    have e : c = c1 := by simpa [forEachAdd] using hc
    subst e
    exact ⟨rfl, rfl, rfl⟩
  | cons a t ih =>
    intro c c1 hc
    unfold forEachAdd addHistoryItem at hc
    by_cases ha : renderThrows a = true
    · simp [ha] at hc
    · have ha2 : renderThrows a = false := by simpa using ha
      simp only [ha2, Bool.false_eq_true, if_false] at hc
      obtain ⟨h1, h2, h3⟩ := ih _ _ hc
      refine ⟨h1, ?_, ?_⟩
      · rw [h2]; simp
      · simp [ha2, h3]

theorem forEachAdd_of_renders (items : List JSON) :
    ∀ c : Calculator, items.any renderThrows = false → ∃ c1, forEachAdd items c = some c1 := by
  induction items with
  | nil => intro c _; exact ⟨c, rfl⟩
  | cons a t ih =>
    intro c hr
    simp only [List.any_cons, Bool.or_eq_false_iff] at hr
    unfold forEachAdd addHistoryItem
    simp only [hr.1, Bool.false_eq_true, if_false]
    exact ih _ hr.2

theorem loadHistory_some (c : Calculator) (hr : c.history.any renderThrows = false) :
    ∃ c1, loadHistory c = some c1 ∧ c1.history = c.history ∧
      c1.historyList = c.history.reverse := by
  obtain ⟨c1, h1⟩ := forEachAdd_of_renders c.history { c with historyList := [] } hr
  obtain ⟨h2, h3, _⟩ := forEachAdd_some _ _ _ h1
  exact ⟨c1, h1, h2, by rw [h3]; simp⟩

theorem loadHistory_history (c c1 : Calculator) (hl : loadHistory c = some c1) :
    c1.history = c.history ∧ c1.historyList = c.history.reverse ∧
      c.history.any renderThrows = false := by
  obtain ⟨h2, h3, h4⟩ := forEachAdd_some _ _ _ hl
  exact ⟨h2, by rw [h3]; simp, h4⟩

theorem loadHistory_none (c : Calculator) (hr : c.history.any renderThrows = true) :
    loadHistory c = none := by
  cases hl : loadHistory c with
  | none => rfl
  | some c1 =>
    have := (loadHistory_history c c1 hl).2.2
    rw [hr] at this
    exact absurd this (by simp)

/-- The log a start-up that completes has loaded: the parsed array, or the
empty one when the parsed value is falsy. -/
theorem startup_history (page : Page) (stored : Option Str) (c0 : Calculator)
    (hstart : startup page stored = some c0) :
    ∃ v, jsonParse (stored.getD "null".toList) = some v ∧
      ((truthy v = true ∧ v = .arr c0.history) ∨ (truthy v = false ∧ c0.history = [])) := by
  unfold startup at hstart
  cases hp : jsonParse (stored.getD "null".toList) with
  | none => rw [hp] at hstart; exact absurd hstart (by simp)
  | some v =>
    rw [hp] at hstart
    refine ⟨v, rfl, ?_⟩
    cases ht : truthy v
    · right
      simp only [ht, Bool.false_eq_true, if_false] at hstart
      exact ⟨rfl, (loadHistory_history _ _ hstart).1⟩
    · left
      simp only [ht, if_true] at hstart
      cases v with
      | arr items => exact ⟨rfl, by rw [(loadHistory_history _ _ hstart).1]⟩
      | null => exact absurd hstart (by simp)
      | bool b => exact absurd hstart (by simp)
      | num a b c => exact absurd hstart (by simp)
      | str s => exact absurd hstart (by simp)
      | obj m => exact absurd hstart (by simp)

/-- When the stored log has at most 10 entries, or nothing is stored, the
history log has at most 10 entries at start-up and after any sequence of
`saveToHistory` and `clearHistory`. -/
theorem history_stays_within_ten (h : Host) (page : Page) (stored : Option Str)
    (c0 : Calculator) (hstart : startup page stored = some c0)
    (hstored : ∀ items, jsonParse (stored.getD "null".toList) = some (.arr items) →
      items.length ≤ 10)
    (ops : List HistoryOp) :
    (runHistoryOps h ops c0).history.length ≤ 10 := by
  apply runHistoryOps_length h ops c0
  obtain ⟨v, hv, h1 | h1⟩ := startup_history page stored c0 hstart
  · rw [h1.2] at hv
    exact hstored _ hv
  · rw [h1.2]; simp

/-- C7 (the claim fails): on the stored texts `not json`, `{"a":1}` and
`[{"expression":{"toString":0}}]` start-up throws. -/
theorem startup_throws_on_malformed :
    (startup blankPage (some "not json".toList)).isSome = false ∧
      (startup blankPage (some "\x7b\"a\":1\x7d".toList)).isSome = false ∧
      (startup blankPage
        (some "[\x7b\"expression\":\x7b\"toString\":0\x7d\x7d]".toList)).isSome = false := by
  decide

/-- C7 (amended): start-up completes with an empty history log when nothing
is stored or the stored text is JSON for a falsy value, and with the stored
array as history log when the stored text is JSON for an array whose elements
can all be rendered (none is `null`, and none has an `expression`, `result` or
`timestamp` that cannot be converted to a string), as an array of history
entries is; it throws when the stored text is not JSON, or is JSON for a
truthy value that is no array, or for an array with an element that cannot be
rendered. -/
theorem startup_outcomes (page : Page) :
    (∃ c, startup page none = some c ∧ c.history = []) ∧
    (∀ text v, jsonParse text = some v → truthy v = false →
      ∃ c, startup page (some text) = some c ∧ c.history = []) ∧
    (∀ text items, jsonParse text = some (.arr items) → items.any renderThrows = false →
      ∃ c, startup page (some text) = some c ∧ c.history = items) ∧
    (∀ text, jsonParse text = none → startup page (some text) = none) ∧
    (∀ text v, jsonParse text = some v → truthy v = true → (∀ items, v ≠ .arr items) →
      startup page (some text) = none) ∧
    (∀ text items, jsonParse text = some (.arr items) → items.any renderThrows = true →
      startup page (some text) = none) ∧
    (∀ entries : List (Str × Str × Str),
      (entries.map fun e => historyItem e.1 e.2.1 e.2.2).any renderThrows = false) := by
  refine ⟨?_, ?_, ?_, ?_, ?_, ?_, ?_⟩
  · exact ⟨_, rfl, rfl⟩
  · intro text v hv ht
    unfold startup
    simp only [Option.getD_some, hv, ht, Bool.false_eq_true, if_false]
    obtain ⟨c1, h1, h2, _⟩ := loadHistory_some
      { output := [], history := [], calcHistory := some text, historyList := [],
        historyDisplay := page.historyDisplay, display := page.display,
        notification := page.notification } rfl
    exact ⟨c1, h1, h2⟩
  · intro text items hv hr
    unfold startup
    simp only [Option.getD_some, hv, truthy, if_true]
    obtain ⟨c1, h1, h2, _⟩ := loadHistory_some
      { output := [], history := items, calcHistory := some text, historyList := [],
        historyDisplay := page.historyDisplay, display := page.display,
        notification := page.notification } hr
    exact ⟨c1, h1, h2⟩
  · intro text hv
    unfold startup
    simp only [Option.getD_some, hv]
  · intro text v hv ht hna
    unfold startup
    cases v with
    | arr items => exact absurd rfl (hna items)
    | null => simp only [Option.getD_some, hv, ht, if_true]
    | bool b => simp only [Option.getD_some, hv, ht, if_true]
    | num a b c => simp only [Option.getD_some, hv, ht, if_true]
    | str s => simp only [Option.getD_some, hv, ht, if_true]
    | obj m => simp only [Option.getD_some, hv, ht, if_true]
  · intro text items hv hr
    unfold startup
    simp only [Option.getD_some, hv, truthy, if_true]
    exact loadHistory_none _ hr
  · intro entries
    induction entries with
    | nil => rfl
    | cons e t ih =>
      simp only [List.map_cons, List.any_cons, renderThrows_historyItem, Bool.false_or]
      exact ih

/-- An instance of C7 (amended): a stored log of two entries is loaded. -/
theorem startup_outcomes_witness :
    ∃ c, startup blankPage (some twoEntries) = some c ∧
      c.history = [historyItem "2+2".toList "4".toList "12:00".toList,
        historyItem "1+1".toList "2".toList "12:00".toList] :=
  (startup_outcomes blankPage).2.2.1 twoEntries _ rfl rfl

/-- C9 (the code at a stored log of two entries, and after eleven
calculations): `loadHistory` renders the log in reverse, the oldest entry on
top; and the rendered list keeps the entry that the log has dropped. -/
theorem rendered_list_differs_from_log :
    (startup blankPage (some twoEntries)).map (fun c =>
        (c.history.map expressionOf, c.historyList.map expressionOf))
      = some ([utf16 "2+2".toList, utf16 "1+1".toList],
          [utf16 "1+1".toList, utf16 "2+2".toList]) ∧
    ((runHistoryOps exampleHost
        (List.replicate 11 (.save "12:00".toList "1+1".toList "2".toList))
        (stateWith [] [])).history.length,
     (runHistoryOps exampleHost
        (List.replicate 11 (.save "12:00".toList "1+1".toList "2".toList))
        (stateWith [] [])).historyList.length) = (10, 11) := by
  decide

theorem natDigitsAux_acc (fuel : Nat) :
    ∀ (n : Nat) (acc : Str), natDigitsAux fuel n acc = natDigitsAux fuel n [] ++ acc := by
  induction fuel with
  | zero => intro n acc; rfl
  | succ f ih =>
    intro n acc
    unfold natDigitsAux
    split_ifs with h
    · rfl
    · rw [ih (n / 10) (digitChar (n % 10) :: acc), ih (n / 10) [digitChar (n % 10)]]
      simp

theorem natDigitsAux_fuel (fuel1 : Nat) :
    ∀ (fuel2 n : Nat), n < fuel1 → n < fuel2 →
      natDigitsAux fuel1 n [] = natDigitsAux fuel2 n [] := by
  induction fuel1 with
  | zero => intro fuel2 n h1 _; omega
  | succ f1 ih =>
    intro fuel2 n h1 h2
    cases fuel2 with
    | zero => omega
    | succ f2 =>
      unfold natDigitsAux
      split_ifs with h
      · rfl
      · rw [natDigitsAux_acc f1, natDigitsAux_acc f2]
        have hdiv : n / 10 < n := Nat.div_lt_self (by omega) (by omega)
        rw [ih f2 (n / 10) (by omega) (by omega)]

theorem natToString_lt_ten (n : Nat) (h : n < 10) : natToString n = [digitChar n] := by
  unfold natToString natDigitsAux
  simp [h]

theorem natToString_step (n : Nat) (h : 10 ≤ n) :
    natToString n = natToString (n / 10) ++ [digitChar (n % 10)] := by
  have hdiv : n / 10 < n := Nat.div_lt_self (by omega) (by omega)
  unfold natToString
  conv => lhs; unfold natDigitsAux
  rw [if_neg (by omega), natDigitsAux_acc]
  rw [natDigitsAux_fuel n (n / 10 + 1) (n / 10) hdiv (by omega)]

theorem natToString_length_pos (n : Nat) : 1 ≤ (natToString n).length := by
  by_cases h : n < 10
  · rw [natToString_lt_ten n h]; simp
  · rw [natToString_step n (by omega)]; simp

theorem digitChar_ne_point (d : Nat) (h : d < 10) : digitChar d ≠ '.' := by
  interval_cases d <;> decide

theorem fixedDigits_length (k r : Nat) : (fixedDigits k r).length = k := by
  induction k generalizing r with
  | zero => rfl
  | succ k ih => simp [fixedDigits, ih]

theorem fixedDigits_no_point (k : Nat) : ∀ r, '.' ∉ fixedDigits k r := by
  induction k with
  | zero => intro r; simp [fixedDigits]
  | succ k ih =>
    intro r
    have h2 := digitChar_ne_point (r % 10) (Nat.mod_lt _ (by omega))
    simp only [fixedDigits, List.mem_append, List.mem_singleton, not_or]
    exact ⟨ih _, fun e => h2 e.symm⟩

theorem fixedDigits_zero (k : Nat) : fixedDigits k 0 = List.replicate k '0' := by
  induction k with
  | zero => rfl
  | succ k ih =>
    simp only [fixedDigits, Nat.zero_div, ih, Nat.zero_mod]
    rw [List.replicate_succ']
    rfl

/-- The digits of `n`, zero-padded to `k + 1` places, are the digits of
`n / 10^k` followed by the `k` low digits. -/
theorem padded_digits_split (k : Nat) :
    ∀ n, List.replicate (k + 1 - (natToString n).length) '0' ++ natToString n =
      natToString (n / 10 ^ k) ++ fixedDigits k (n % 10 ^ k) := by
  induction k with
  | zero =>
    intro n
    have := natToString_length_pos n
    have e : 0 + 1 - (natToString n).length = 0 := by omega
    simp [e, fixedDigits]
  | succ k ih =>
    intro n
    by_cases h : n < 10
    · have hpow : n < 10 ^ (k + 1) := by
        calc n < 10 := h
          _ = 10 ^ 1 := by norm_num
          _ ≤ 10 ^ (k + 1) := Nat.pow_le_pow_right (by norm_num) (by omega)
      rw [natToString_lt_ten n h, Nat.div_eq_of_lt hpow, Nat.mod_eq_of_lt hpow]
      have e0 : natToString 0 = ['0'] := by decide
      have e1 : n / 10 = 0 := Nat.div_eq_of_lt h
      have e2 : n % 10 = n := Nat.mod_eq_of_lt h
      simp only [fixedDigits, e0, e1, e2, fixedDigits_zero, List.length_singleton]
      have e3 : k + 1 + 1 - 1 = k + 1 := by omega
      rw [e3, List.replicate_succ]
      simp
    · have hn : 10 ≤ n := by omega
      rw [natToString_step n hn]
      have e1 : n / 10 / 10 ^ k = n / 10 ^ (k + 1) := by
        rw [Nat.div_div_eq_div_mul, pow_succ, Nat.mul_comm]
      have e2 : n % 10 ^ (k + 1) / 10 = n / 10 % 10 ^ k := by
        rw [pow_succ, Nat.mul_comm, Nat.mod_mul_right_div_self]
      have e3 : n % 10 ^ (k + 1) % 10 = n % 10 := by
        apply Nat.mod_mod_of_dvd
        exact Dvd.intro_left (10 ^ k) (by rw [pow_succ])
      have ih2 := ih (n / 10)
      simp only [fixedDigits, e2, e3, List.length_append, List.length_singleton]
      have e4 : k + 1 + 1 - ((natToString (n / 10)).length + 1) =
          k + 1 - (natToString (n / 10)).length := by omega
      rw [e4, ← List.append_assoc, ih2, e1, List.append_assoc]

theorem all_zero_false_of_point (s t : Str) : (s ++ '.' :: t).all (· == '0') = false := by
  rw [List.all_eq_false]
  exact ⟨'.', by simp, by decide⟩

theorem matchDotZeros_before_point (c : Char) (s t : Str) :
    matchDotZeros (c :: (s ++ '.' :: t)) = false := by
  unfold matchDotZeros
  split
  · next rest heq =>
      have e : rest = s ++ '.' :: t := by
        injection heq with _ h2
        exact h2.symm
      rw [e, all_zero_false_of_point]
      simp
  · have e : (c :: (s ++ '.' :: t)).all (· == '0') = false :=
      all_zero_false_of_point (c :: s) t
    rw [e]
    simp

/-- The replacement leaves everything before a point in place. -/
theorem replaceTrailingZeros_before_point (p t : Str) :
    replaceTrailingZeros (p ++ '.' :: t) = p ++ replaceTrailingZeros ('.' :: t) := by
  induction p with
  | nil => rfl
  | cons c s ih =>
    rw [List.cons_append, replaceTrailingZeros, matchDotZeros_before_point]
    simp [ih]

theorem matchDotZeros_of_no_point (c : Char) (s : Str) (h : c ≠ '.') :
    matchDotZeros (c :: s) = (c :: s).all (· == '0') := by
  unfold matchDotZeros
  split
  · next rest heq =>
      injection heq with h1 _
      exact absurd h1 h
  · simp

theorem rdropWhile_cons (p : Char → Bool) (c : Char) (l : Str) :
    (c :: l).rdropWhile p = if (c :: l).all p then [] else c :: l.rdropWhile p := by
  induction l using List.reverseRecOn with
  | nil =>
    by_cases hc : p c = true
    · simp [List.rdropWhile, hc]
    · simp [List.rdropWhile, hc]
  | append_singleton l x ih =>
    rw [← List.cons_append]
    by_cases hx : p x = true
    · rw [List.rdropWhile_concat_pos _ _ _ hx, List.rdropWhile_concat_pos _ _ _ hx, ih]
      simp [hx]
    · rw [List.rdropWhile_concat_neg _ _ _ hx, List.rdropWhile_concat_neg _ _ _ hx]
      simp [hx]

/-- On a string without a point the replacement trims the trailing zeros. -/
theorem replaceTrailingZeros_of_no_point (s : Str) (h : '.' ∉ s) :
    replaceTrailingZeros s = trimTrailingZeros s := by
  induction s with
  | nil => rfl
  | cons c t ih =>
    have hc : c ≠ '.' := fun e => h (by simp [e])
    have ht : '.' ∉ t := fun e => h (List.mem_cons_of_mem _ e)
    unfold trimTrailingZeros at ih ⊢
    rw [replaceTrailingZeros, matchDotZeros_of_no_point c t hc, rdropWhile_cons, ih ht]

theorem trimTrailingZeros_eq_nil (s : Str) :
    trimTrailingZeros s = [] ↔ s.all (· == '0') = true := by
  induction s with
  | nil => simp [trimTrailingZeros]
  | cons c t ih =>
    unfold trimTrailingZeros at ih ⊢
    rw [rdropWhile_cons]
    split_ifs with h1
    · simp [h1]
    · simp [h1]

/-- After a point followed by digits: the point goes too when all the digits
are zeros, and otherwise the trailing zeros are trimmed. -/
theorem replaceTrailingZeros_point (f : Str) (hf : f ≠ []) (h : '.' ∉ f) :
    replaceTrailingZeros ('.' :: f) =
      if (trimTrailingZeros f).isEmpty then [] else '.' :: trimTrailingZeros f := by
  have hne : f.isEmpty = false := by
    cases f with
    | nil => exact absurd rfl hf
    | cons a t => rfl
  rw [replaceTrailingZeros]
  have hm : matchDotZeros ('.' :: f) = f.all (· == '0') := by
    simp [matchDotZeros, hne]
  rw [hm, replaceTrailingZeros_of_no_point f h]
  by_cases hz : f.all (· == '0') = true
  · have := (trimTrailingZeros_eq_nil f).2 hz
    simp [hz, this]
  · have hz2 : ¬ trimTrailingZeros f = [] := fun e => hz ((trimTrailingZeros_eq_nil f).1 e)
    have hz3 : (trimTrailingZeros f).isEmpty = false := by
      cases hh : trimTrailingZeros f with
      | nil => exact absurd hh hz2
      | cons a t => rfl
    simp [hz, hz3]

theorem toFixed8_fin (neg : Bool) (a : Nat) :
    toFixed8 (.fin neg a) =
      if 10 ^ 21 * unitScale ≤ a then numberToString (.fin neg a)
      else
        let n := (2 * a * 10 ^ 8 + unitScale) / (2 * unitScale)
        let m := natToString n
        let m := List.replicate (9 - m.length) '0' ++ m
        let body := m.take (m.length - 8) ++ '.' :: m.drop (m.length - 8)
        if neg && a != 0 then '-' :: body else body := rfl

theorem numberToString_fin (neg : Bool) (a : Nat) :
    numberToString (.fin neg a) =
      if a = 0 then "0".toList
      else (if neg then ['-'] else []) ++ wholeToString (a / unitScale) := rfl

theorem unitScale_pos : 0 < unitScale := by
  unfold unitScale
  positivity

/-- The text `toFixed(8)` gives, trimmed by the replacement, is the rendering
with 8 rounded fraction digits. -/
theorem replaceTrailingZeros_toFixed8 (neg : Bool) (a : Nat) (hpos : a ≠ 0)
    (hsmall : a < 2 ^ 53 * unitScale) :
    replaceTrailingZeros (toFixed8 (.fin neg a)) =
      renderScaled neg ((2 * a * 10 ^ 8 + unitScale) / (2 * unitScale)) := by
  have hlt : ¬ 10 ^ 21 * unitScale ≤ a := by
    have h1 : 2 ^ 53 * unitScale ≤ 10 ^ 21 * unitScale :=
      Nat.mul_le_mul_right _ (by norm_num)
    omega
  rw [toFixed8_fin, if_neg hlt]
  simp only []
  generalize (2 * a * 10 ^ 8 + unitScale) / (2 * unitScale) = n
  have hsplit := padded_digits_split 8 n
  have e9 : (9 : Nat) = 8 + 1 := rfl
  rw [e9, hsplit]
  have hlen : (natToString (n / 10 ^ 8) ++ fixedDigits 8 (n % 10 ^ 8)).length - 8 =
      (natToString (n / 10 ^ 8)).length := by
    simp [fixedDigits_length]
  rw [hlen, List.take_left' rfl, List.drop_left' rfl]
  have hnz : (neg && a != 0) = neg := by
    cases neg <;> simp [hpos]
  rw [hnz]
  have hfne : fixedDigits 8 (n % 10 ^ 8) ≠ [] := by
    intro e
    have := fixedDigits_length 8 (n % 10 ^ 8)
    rw [e] at this
    exact absurd this (by decide)
  have key := replaceTrailingZeros_point (fixedDigits 8 (n % 10 ^ 8)) hfne
    (fixedDigits_no_point 8 _)
  have hsign : ∀ body : Str, (if neg = true then '-' :: body else body) =
      (if neg = true then ['-'] else []) ++ body := by
    intro body
    cases neg <;> rfl
  rw [hsign]
  unfold renderScaled
  rw [List.append_assoc, ← List.append_assoc, replaceTrailingZeros_before_point, key,
    List.append_assoc]

/-- What `formatResult` returns when the rounded value is below `2^53`. -/
theorem formatResult_eq_formatRounding (x : JSNum) (h : belowTwo53 (rounded10 x) = true) :
    formatResult x = formatRounding (rounded10 x) := by
  unfold formatResult
  simp only []
  cases hr : rounded10 x with
  | nan => rw [hr] at h; exact absurd h (by simp [belowTwo53])
  | inf s => rw [hr] at h; exact absurd h (by simp [belowTwo53])
  | fin neg a =>
    rw [hr] at h
    have hsmall : a < 2 ^ 53 * unitScale := by simpa [belowTwo53] using h
    unfold formatRounding isWhole
    by_cases hw : a % unitScale = 0
    · simp only [hw, decide_True, if_true]
      rw [numberToString_fin]
      unfold renderWhole
      have hdiv : a / unitScale < 2 ^ 53 := (Nat.div_lt_iff_lt_mul unitScale_pos).2 hsmall
      by_cases ha : a = 0
      · simp [ha]
      · have hv : a / unitScale ≠ 0 := by
          intro e
          have := Nat.div_add_mod a unitScale
          rw [e, hw] at this
          omega
        rw [if_neg ha, if_neg hv]
        unfold wholeToString
        rw [if_pos hdiv]
    · have ha : a ≠ 0 := by
        intro e
        rw [e] at hw
        exact hw (Nat.zero_mod _)
      simp only [hw, decide_False, Bool.false_eq_true, if_false]
      exact replaceTrailingZeros_toFixed8 neg a ha hsmall

theorem lt_two_pow_bitLenAux (fuel : Nat) : ∀ n, n ≤ fuel → n < 2 ^ bitLenAux fuel n := by
  induction fuel with
  | zero =>
    intro n hn
    have : n = 0 := by omega
    subst this
    simp [bitLenAux]
  | succ f ih =>
    intro n hn
    unfold bitLenAux
    split_ifs with h0 h64
    · subst h0; simp
    · have hpos : 0 < n := Nat.pos_of_ne_zero h0
      have hdiv : n / 2 ^ 64 < n := Nat.div_lt_self hpos (by norm_num)
      have h1 := ih (n / 2 ^ 64) (by omega)
      rw [Nat.div_lt_iff_lt_mul (by positivity)] at h1
      rw [pow_add, Nat.mul_comm]
      exact h1
    · have hpos : 0 < n := Nat.pos_of_ne_zero h0
      have hdiv : n / 2 < n := Nat.div_lt_self hpos (by norm_num)
      have h1 := ih (n / 2) (by omega)
      rw [Nat.div_lt_iff_lt_mul (by norm_num)] at h1
      rw [pow_add, Nat.mul_comm]
      simpa using h1

theorem lt_two_pow_bitLen (n : Nat) : n < 2 ^ bitLen n :=
  lt_two_pow_bitLenAux n n (Nat.le_refl n)

/-- The rounding is a significand of at most `2^53` times a power of two. -/
theorem roundToDouble_form (p q : Nat) :
    ∃ m1, roundToDouble p q = m1 * 2 ^ (bitLen (p / q) - 53) ∧ m1 ≤ 2 ^ 53 := by
  have hm : p / (q * 2 ^ (bitLen (p / q) - 53)) < 2 ^ 53 := by
    rw [← Nat.div_div_eq_div_mul]
    rw [Nat.div_lt_iff_lt_mul (by positivity)]
    have h1 := lt_two_pow_bitLen (p / q)
    have h2 : 2 ^ bitLen (p / q) ≤ 2 ^ 53 * 2 ^ (bitLen (p / q) - 53) := by
      rw [← pow_add]
      exact Nat.pow_le_pow_right (by norm_num) (by omega)
    omega
  unfold roundToDouble
  simp only []
  split_ifs
  · exact ⟨_, rfl, by omega⟩
  · exact ⟨_, rfl, by omega⟩
  · exact ⟨_, rfl, by omega⟩
  · exact ⟨_, rfl, by omega⟩

theorem ten10_eq : ten10 = .fin false (10 ^ 10 * unitScale) := by
  decide

theorem bitLenAux_le (fuel : Nat) : ∀ n k, n < 2 ^ k → bitLenAux fuel n ≤ k := by
  induction fuel with
  | zero => intro n k _; simp [bitLenAux]
  | succ f ih =>
    intro n k hn
    unfold bitLenAux
    split_ifs with h0 h64
    · omega
    · have hk : 64 < k := by
        by_contra hk
        have h1 : (2 : Nat) ^ k ≤ 2 ^ 64 := Nat.pow_le_pow_right (by norm_num) (by omega)
        omega
      have h2 : n / 2 ^ 64 < 2 ^ (k - 64) := by
        rw [Nat.div_lt_iff_lt_mul (by positivity), ← pow_add]
        have : k - 64 + 64 = k := by omega
        rw [this]
        exact hn
      have := ih _ _ h2
      omega
    · have hk : 0 < k := by
        by_contra hk
        have : k = 0 := by omega
        subst this
        simp at hn
        exact h0 hn
      have h2 : n / 2 < 2 ^ (k - 1) := by
        rw [Nat.div_lt_iff_lt_mul (by norm_num), ← pow_succ]
        have : k - 1 + 1 = k := by omega
        rw [this]
        exact hn
      have := ih _ _ h2
      omega

theorem bitLen_le (n k : Nat) (h : n < 2 ^ k) : bitLen n ≤ k :=
  bitLenAux_le n n k h

/-- The rounding differs from `p / q` by at most half a unit in the last
place: `|R * q - p| ≤ q * 2^s / 2` for the exponent `s` of the rounding. -/
theorem roundToDouble_error (p q : Nat) (hq : 0 < q) :
    2 * (roundToDouble p q * q) ≤ 2 * p + q * 2 ^ (bitLen (p / q) - 53) ∧
      2 * p ≤ 2 * (roundToDouble p q * q) + q * 2 ^ (bitLen (p / q) - 53) := by
  unfold roundToDouble
  simp only []
  have hdm := Nat.div_add_mod p (q * 2 ^ (bitLen (p / q) - 53))
  have hdpos : 0 < q * 2 ^ (bitLen (p / q) - 53) := Nat.mul_pos hq (by positivity)
  have hlt := Nat.mod_lt p hdpos
  have key : ∀ m1, m1 * 2 ^ (bitLen (p / q) - 53) * q =
      m1 * (q * 2 ^ (bitLen (p / q) - 53)) := by
    intro m1; ring
  have k1 : p / (q * 2 ^ (bitLen (p / q) - 53)) * (q * 2 ^ (bitLen (p / q) - 53)) =
      q * 2 ^ (bitLen (p / q) - 53) * (p / (q * 2 ^ (bitLen (p / q) - 53))) := Nat.mul_comm _ _
  have k2 : (p / (q * 2 ^ (bitLen (p / q) - 53)) + 1) * (q * 2 ^ (bitLen (p / q) - 53)) =
      q * 2 ^ (bitLen (p / q) - 53) * (p / (q * 2 ^ (bitLen (p / q) - 53))) +
        q * 2 ^ (bitLen (p / q) - 53) := by ring
  generalize q * 2 ^ (bitLen (p / q) - 53) = d at *
  generalize d * (p / d) = w at *
  split_ifs with h1 h2 h3
  · rw [key, k1]; clear k1 k2 key; omega
  · rw [key, k2]; clear k1 k2 key; omega
  · rw [key, k1]; clear k1 k2 key; omega
  · rw [key, k2]; clear k1 k2 key; omega

/-- A quotient that a double holds is not changed by the rounding. -/
theorem roundToDouble_exact (p q : Nat) (hq : 0 < q)
    (h : q * 2 ^ (bitLen (p / q) - 53) ∣ p) : roundToDouble p q = p / q := by
  unfold roundToDouble
  simp only []
  generalize bitLen (p / q) - 53 = s at h ⊢
  obtain ⟨c, hc⟩ := h
  subst hc
  have hdpos : 0 < q * 2 ^ s := Nat.mul_pos hq (by positivity)
  rw [Nat.mul_mod_right, Nat.mul_div_cancel_left c hdpos, if_pos (by omega), Nat.mul_assoc,
    Nat.mul_div_cancel_left _ hq, Nat.mul_comm]

/-- The rounding depends on the quotient only. -/
theorem roundToDouble_scale (p q c : Nat) (hc : 0 < c) :
    roundToDouble (p * c) (q * c) = roundToDouble p q := by
  unfold roundToDouble
  simp only []
  rw [Nat.mul_div_mul_right p q hc]
  have e : q * c * 2 ^ (bitLen (p / q) - 53) = q * 2 ^ (bitLen (p / q) - 53) * c := by ring
  rw [e, Nat.mul_div_mul_right _ _ hc, Nat.mul_mod_mul_right]
  generalize q * 2 ^ (bitLen (p / q) - 53) = d
  have h1 : (2 * (p % d * c) < d * c) ↔ (2 * (p % d) < d) := by
    rw [← Nat.mul_assoc]
    exact Nat.mul_lt_mul_right hc
  have h2 : (d * c < 2 * (p % d * c)) ↔ (d < 2 * (p % d)) := by
    rw [← Nat.mul_assoc]
    exact Nat.mul_lt_mul_right hc
  simp only [h1, h2]

/-- A bound on the rounding from a bound on the quotient. -/
theorem roundToDouble_le (p q k : Nat) (h : p / q < 2 ^ (53 + k)) :
    roundToDouble p q ≤ 2 ^ (53 + k) := by
  obtain ⟨m1, hform, hm1⟩ := roundToDouble_form p q
  have hs : bitLen (p / q) - 53 ≤ k := by
    have := bitLen_le _ _ h
    omega
  rw [hform, pow_add]
  exact Nat.mul_le_mul hm1 (Nat.pow_le_pow_right (by norm_num) hs)

theorem mkNum_fin (neg : Bool) (p q : Nat) (h : roundToDouble p q < overflowBound) :
    mkNum neg p q = .fin neg (roundToDouble p q) := by
  show (if roundToDouble p q < overflowBound then JSNum.fin neg (roundToDouble p q)
    else JSNum.inf neg) = _
  rw [if_pos h]

theorem div_eq_of_bounds (m n k : Nat) (lo : n * k ≤ m) (hi : m < n * k + n) : m / n = k := by
  apply Nat.div_eq_of_lt_le
  · rw [Nat.mul_comm]; exact lo
  · rw [Nat.succ_mul, Nat.mul_comm]; exact hi

theorem two_pow_53_unitScale : 2 ^ 53 * unitScale = 2 ^ (53 + 1074) := by
  unfold unitScale
  rw [pow_add]

/-- The quotient by `10^10` of a count `k ≤ 2^53` is rounded with an error
below the `10^10`-th part of a unit. -/
theorem quotient_error (k : Nat) (hk : k ≤ 2 ^ 53) :
    ∃ g, g < 2 * unitScale ∧
      2 * (roundToDouble (k * unitScale) (10 ^ 10) * 10 ^ 10) ≤ 2 * (k * unitScale) + g ∧
      2 * (k * unitScale) ≤ 2 * (roundToDouble (k * unitScale) (10 ^ 10) * 10 ^ 10) + g ∧
      bitLen (k * unitScale / 10 ^ 10) - 53 ≤ 1041 := by
  have hq : k * unitScale / 10 ^ 10 < 2 ^ 1094 := by
    rw [Nat.div_lt_iff_lt_mul (by norm_num)]
    have h1 : k * unitScale ≤ 2 ^ 53 * unitScale := Nat.mul_le_mul_right _ hk
    have h2 : 2 ^ 53 * unitScale < 2 ^ 1094 * 10 ^ 10 := by
      unfold unitScale
      norm_num
    omega
  have hs : bitLen (k * unitScale / 10 ^ 10) - 53 ≤ 1041 := by
    have := bitLen_le _ _ hq
    omega
  have hpow : 2 ^ (bitLen (k * unitScale / 10 ^ 10) - 53) ≤ 2 ^ 1041 :=
    Nat.pow_le_pow_right (by norm_num) hs
  have hg : 10 ^ 10 * 2 ^ (bitLen (k * unitScale / 10 ^ 10) - 53) < 2 * unitScale := by
    have h1 : 10 ^ 10 * 2 ^ (bitLen (k * unitScale / 10 ^ 10) - 53) ≤ 10 ^ 10 * 2 ^ 1041 :=
      Nat.mul_le_mul_left _ hpow
    have h2 : 10 ^ 10 * 2 ^ 1041 < 2 * unitScale := by
      unfold unitScale
      norm_num
    omega
  obtain ⟨e1, e2⟩ := roundToDouble_error (k * unitScale) (10 ^ 10) (by norm_num)
  exact ⟨_, hg, e1, e2, hs⟩

/-- The quotient is whole exactly when the count is a multiple of `10^10`. -/
theorem quotient_whole (k : Nat) (hk : k ≤ 2 ^ 53) :
    (roundToDouble (k * unitScale) (10 ^ 10) % unitScale = 0 ↔ k % 10 ^ 10 = 0) ∧
      (k % 10 ^ 10 = 0 → roundToDouble (k * unitScale) (10 ^ 10) / unitScale = k / 10 ^ 10) := by
  obtain ⟨g, hg, e1, e2, hs⟩ := quotient_error k hk
  have hexact : k % 10 ^ 10 = 0 →
      roundToDouble (k * unitScale) (10 ^ 10) = k / 10 ^ 10 * unitScale := by
    intro hmod
    obtain ⟨c, hc⟩ := Nat.dvd_of_mod_eq_zero hmod
    have h2 : 2 ^ (bitLen (k * unitScale / 10 ^ 10) - 53) ∣ unitScale :=
      pow_dvd_pow 2 (by omega)
    have hdvd : 10 ^ 10 * 2 ^ (bitLen (k * unitScale / 10 ^ 10) - 53) ∣ k * unitScale := by
      generalize 2 ^ (bitLen (k * unitScale / 10 ^ 10) - 53) = d at h2 ⊢
      rw [hc, Nat.mul_assoc]
      exact Nat.mul_dvd_mul_left _ (Dvd.dvd.mul_left h2 c)
    rw [roundToDouble_exact _ _ (by norm_num) hdvd, hc]
    rw [Nat.mul_div_cancel_left c (by norm_num)]
    rw [Nat.mul_assoc, Nat.mul_div_cancel_left _ (by norm_num)]
  refine ⟨⟨?_, ?_⟩, ?_⟩
  · intro hr
    obtain ⟨c, hc⟩ := Nat.dvd_of_mod_eq_zero hr
    rw [hc] at e1 e2
    have hkc : k = c * 10 ^ 10 := by
      rcases Nat.lt_trichotomy k (c * 10 ^ 10) with h | h | h
      · exfalso
        have h1 : (k + 1) * unitScale ≤ c * 10 ^ 10 * unitScale := Nat.mul_le_mul_right _ h
        have h2 : (k + 1) * unitScale = k * unitScale + unitScale := by ring
        have h3 : c * 10 ^ 10 * unitScale = unitScale * c * 10 ^ 10 := by ring
        rw [h2, h3] at h1
        omega
      · exact h
      · exfalso
        have h1 : (c * 10 ^ 10 + 1) * unitScale ≤ k * unitScale := Nat.mul_le_mul_right _ h
        have h2 : (c * 10 ^ 10 + 1) * unitScale = unitScale * c * 10 ^ 10 + unitScale := by ring
        rw [h2] at h1
        omega
    rw [hkc]
    exact Nat.mul_mod_left _ _
  · intro hmod
    rw [hexact hmod]
    exact Nat.mul_mod_left _ _
  · intro hmod
    rw [hexact hmod]
    exact Nat.mul_div_cancel _ unitScale_pos

/-- The rounding of the quotient to 8 fraction digits, as `toFixed(8)` makes
it, is the rounding of the count to hundreds; on a tie this needs the quotient
not to be rounded down. -/
theorem quotient_fixed (k : Nat) (hk : k ≤ 2 ^ 53)
    (htie : k % 100 = 50 → k * unitScale ≤ roundToDouble (k * unitScale) (10 ^ 10) * 10 ^ 10) :
    (2 * roundToDouble (k * unitScale) (10 ^ 10) * 10 ^ 8 + unitScale) / (2 * unitScale) =
      (k + 50) / 100 := by
  obtain ⟨g, hg, e1, e2, _⟩ := quotient_error k hk
  generalize roundToDouble (k * unitScale) (10 ^ 10) = r at *
  have hv1 : 100 * ((k + 50) / 100) ≤ k + 50 := Nat.mul_div_le _ _
  have hv2 : k + 50 < 100 * ((k + 50) / 100) + 100 := by omega
  have hv3 : k % 100 ≠ 50 → 100 * ((k + 50) / 100) + 1 ≤ k + 50 := by omega
  have hv4 : k % 100 = 50 → 100 * ((k + 50) / 100) = k + 50 := by omega
  generalize (k + 50) / 100 = v at *
  apply div_eq_of_bounds
  · have m1 : 100 * v * unitScale ≤ (k + 50) * unitScale := Nat.mul_le_mul_right _ hv1
    have a1 : 100 * v * unitScale = 100 * (v * unitScale) := by ring
    have a2 : (k + 50) * unitScale = k * unitScale + 50 * unitScale := by ring
    have a3 : 2 * unitScale * v = 2 * (v * unitScale) := by ring
    rw [a1, a2] at m1
    rw [a3]
    by_cases ht : k % 100 = 50
    · have := htie ht
      have m2 : 100 * v * unitScale = (k + 50) * unitScale := by rw [hv4 ht]
      rw [a1, a2] at m2
      omega
    · have m2 : (100 * v + 1) * unitScale ≤ (k + 50) * unitScale :=
        Nat.mul_le_mul_right _ (hv3 ht)
      have a4 : (100 * v + 1) * unitScale = 100 * (v * unitScale) + unitScale := by ring
      rw [a4, a2] at m2
      omega
  · have m1 : (k + 50 + 1) * unitScale ≤ (100 * v + 100) * unitScale :=
      Nat.mul_le_mul_right _ hv2
    have a1 : (k + 50 + 1) * unitScale = k * unitScale + 51 * unitScale := by ring
    have a2 : (100 * v + 100) * unitScale = 100 * (v * unitScale) + 100 * unitScale := by ring
    have a3 : 2 * unitScale * v = 2 * (v * unitScale) := by ring
    rw [a1, a2] at m1
    rw [a3]
    omega

/-- The count `Math.round` gives on the rounded product is the exact one. -/
theorem product_count (b : Nat) (hr : b < 2 ^ 53 * unitScale)
    (hp : b % 2 ^ (bitLen b - 53) = 0 ∨
      (2 ^ (bitLen b - 53) < (2 * b + unitScale) % (2 * unitScale) ∧
        (2 * b + unitScale) % (2 * unitScale) + 2 ^ (bitLen b - 53) < 2 * unitScale)) :
    roundToDouble (b * unitScale) unitScale < overflowBound ∧
      (2 * roundToDouble (b * unitScale) unitScale + unitScale) / (2 * unitScale) =
        (2 * b + unitScale) / (2 * unitScale) ∧
      (2 * roundToDouble (b * unitScale) unitScale + unitScale - 1) / (2 * unitScale) =
        (2 * b + unitScale - 1) / (2 * unitScale) := by
  have hq : b * unitScale / unitScale = b := Nat.mul_div_cancel _ unitScale_pos
  have hle : roundToDouble (b * unitScale) unitScale ≤ 2 ^ (53 + 1074) := by
    apply roundToDouble_le
    rw [hq, ← two_pow_53_unitScale]
    exact hr
  have hov : roundToDouble (b * unitScale) unitScale < overflowBound := by
    have : (2 : Nat) ^ (53 + 1074) < overflowBound := by
      unfold overflowBound
      exact Nat.pow_lt_pow_right (by norm_num) (by norm_num)
    omega
  refine ⟨hov, ?_⟩
  rcases hp with hex | ⟨hlo, hhi⟩
  · have hdvd : unitScale * 2 ^ (bitLen (b * unitScale / unitScale) - 53) ∣ b * unitScale := by
      rw [hq, Nat.mul_comm b]
      exact Nat.mul_dvd_mul_left _ (Nat.dvd_of_mod_eq_zero hex)
    rw [roundToDouble_exact _ _ unitScale_pos hdvd, hq]
    exact ⟨rfl, rfl⟩
  · obtain ⟨e1, e2⟩ := roundToDouble_error (b * unitScale) unitScale unitScale_pos
    rw [hq] at e1 e2
    generalize roundToDouble (b * unitScale) unitScale = r at *
    generalize 2 ^ (bitLen b - 53) = u at *
    have f1 : 2 * r ≤ 2 * b + u := by
      apply Nat.le_of_mul_le_mul_right _ unitScale_pos
      have a1 : 2 * r * unitScale = 2 * (r * unitScale) := by ring
      have a2 : (2 * b + u) * unitScale = 2 * (b * unitScale) + unitScale * u := by ring
      rw [a1, a2]
      exact e1
    have f2 : 2 * b ≤ 2 * r + u := by
      apply Nat.le_of_mul_le_mul_right _ unitScale_pos
      have a1 : 2 * b * unitScale = 2 * (b * unitScale) := by ring
      have a2 : (2 * r + u) * unitScale = 2 * (r * unitScale) + unitScale * u := by ring
      rw [a1, a2]
      exact e2
    have hdm := Nat.div_add_mod (2 * b + unitScale) (2 * unitScale)
    have hpos := unitScale_pos
    generalize (2 * b + unitScale) % (2 * unitScale) = t at *
    have k1 : (2 * b + unitScale - 1) / (2 * unitScale) =
        (2 * b + unitScale) / (2 * unitScale) := by
      apply div_eq_of_bounds <;> omega
    rw [k1]
    generalize (2 * b + unitScale) / (2 * unitScale) = k0 at *
    constructor
    · apply div_eq_of_bounds <;> omega
    · apply div_eq_of_bounds <;> omega

theorem fdiv_fin (s t : Bool) (a b : Nat) :
    fdiv (.fin s a) (.fin t b) =
      if b = 0 then (if a = 0 then .nan else .inf (s != t))
      else mkNum (s != t) (a * unitScale) b := rfl

theorem exactScaled_le (neg : Bool) (a : Nat) (hr : a * 10 ^ 10 < 2 ^ 53 * unitScale) :
    exactScaled neg a ≤ 2 ^ 53 := by
  have hpos := unitScale_pos
  unfold exactScaled
  generalize a * 10 ^ 10 = b at *
  have h1 : (2 * b + unitScale) / (2 * unitScale) < 2 ^ 53 + 1 := by
    rw [Nat.div_lt_iff_lt_mul (by omega)]
    omega
  have h2 : (2 * b + unitScale - 1) / (2 * unitScale) ≤ (2 * b + unitScale) / (2 * unitScale) :=
    Nat.div_le_div_right (by omega)
  split_ifs <;> omega

/-- The first line of `formatResult` on a result clear of the noise: the
double nearest to the exact count divided by `10^10`. -/
theorem rounded10_exact (neg : Bool) (a : Nat) (hr : a * 10 ^ 10 < 2 ^ 53 * unitScale)
    (hp : productExact a = true ∨ productClear a = true) :
    rounded10 (.fin neg a) =
      .fin neg (roundToDouble (exactScaled neg a * unitScale) (10 ^ 10)) := by
  have hk := exactScaled_le neg a hr
  have hp1 : (a * 10 ^ 10) % 2 ^ (bitLen (a * 10 ^ 10) - 53) = 0 ∨
      (2 ^ (bitLen (a * 10 ^ 10) - 53) < (2 * (a * 10 ^ 10) + unitScale) % (2 * unitScale) ∧
        (2 * (a * 10 ^ 10) + unitScale) % (2 * unitScale) + 2 ^ (bitLen (a * 10 ^ 10) - 53) <
          2 * unitScale) := by
    rcases hp with h | h
    · left
      unfold productExact at h
      exact eq_of_beq h
    · right
      unfold productClear at h
      simp only [Bool.and_eq_true, decide_eq_true_eq] at h
      exact h
  obtain ⟨hov, c1, c2⟩ := product_count (a * 10 ^ 10) hr hp1
  have hb : (neg != false) = neg := by cases neg <;> rfl
  have hT : 10 ^ 10 * unitScale ≠ 0 := Nat.ne_of_gt (Nat.mul_pos (by norm_num) unitScale_pos)
  have hmul : fmul (.fin neg a) ten10 =
      .fin neg (roundToDouble (a * 10 ^ 10 * unitScale) unitScale) := by
    rw [ten10_eq]
    show mkNum (neg != false) (a * (10 ^ 10 * unitScale)) unitScale = _
    rw [hb, ← Nat.mul_assoc]
    exact mkNum_fin _ _ _ hov
  have hround : mathRound (fmul (.fin neg a) ten10) =
      .fin neg (exactScaled neg a * unitScale) := by
    rw [hmul]
    unfold exactScaled
    cases neg
    · show JSNum.fin false (_ / _ * unitScale) = _
      rw [c1]
      rfl
    · show JSNum.fin true (_ / _ * unitScale) = _
      rw [c2]
      rfl
  unfold rounded10
  rw [hround, ten10_eq]
  rw [fdiv_fin, if_neg hT, hb]
  generalize exactScaled neg a = k at *
  have hsc := roundToDouble_scale (k * unitScale) (10 ^ 10) unitScale unitScale_pos
  have hle : roundToDouble (k * unitScale) (10 ^ 10) ≤ 2 ^ (53 + 1041) := by
    obtain ⟨g, _, _, _, hs⟩ := quotient_error k hk
    obtain ⟨m1, hform, hm1⟩ := roundToDouble_form (k * unitScale) (10 ^ 10)
    rw [hform, pow_add]
    exact Nat.mul_le_mul hm1 (Nat.pow_le_pow_right (by norm_num) hs)
  have hov2 : roundToDouble (k * unitScale * unitScale) (10 ^ 10 * unitScale) < overflowBound := by
    rw [hsc]
    have : (2 : Nat) ^ (53 + 1041) < overflowBound := by
      unfold overflowBound
      exact Nat.pow_lt_pow_right (by norm_num) (by norm_num)
    omega
  rw [mkNum_fin _ _ _ hov2, hsc]

theorem quotient_below (k : Nat) (hk : k ≤ 2 ^ 53) :
    roundToDouble (k * unitScale) (10 ^ 10) < 2 ^ 53 * unitScale := by
  obtain ⟨g, _, _, _, hs⟩ := quotient_error k hk
  obtain ⟨m1, hform, hm1⟩ := roundToDouble_form (k * unitScale) (10 ^ 10)
  rw [hform]
  have h1 : 2 ^ (bitLen (k * unitScale / 10 ^ 10) - 53) ≤ 2 ^ 1041 :=
    Nat.pow_le_pow_right (by norm_num) hs
  have h2 : (2 : Nat) ^ 1041 < unitScale := by
    unfold unitScale
    exact Nat.pow_lt_pow_right (by norm_num) (by norm_num)
  calc m1 * 2 ^ (bitLen (k * unitScale / 10 ^ 10) - 53) ≤ 2 ^ 53 * 2 ^ 1041 :=
        Nat.mul_le_mul hm1 h1
    _ < 2 ^ 53 * unitScale := Nat.mul_lt_mul_of_pos_left h2 (by positivity)

/-- On a result clear of the noise `formatResult` gives the exact rendering. -/
theorem formatResult_eq_formatExact (x : JSNum) (h : noiseFree x = true) :
    formatResult x = formatExact x := by
  cases x with
  | nan => exact absurd h (by simp [noiseFree])
  | inf s => exact absurd h (by simp [noiseFree])
  | fin neg a =>
    unfold noiseFree at h
    simp only [Bool.and_eq_true, Bool.or_eq_true, decide_eq_true_eq] at h
    obtain ⟨⟨hr, hp⟩, ht⟩ := h
    have hk := exactScaled_le neg a hr
    have hround := rounded10_exact neg a hr hp
    have htie : exactScaled neg a % 100 = 50 → exactScaled neg a * unitScale ≤
        roundToDouble (exactScaled neg a * unitScale) (10 ^ 10) * 10 ^ 10 := by
      intro h50
      unfold tieKept at ht
      simp only [Bool.or_eq_true, decide_eq_true_eq, bne_iff_ne, ne_eq] at ht
      rcases ht with h1 | h1
      · exact absurd h50 h1
      · exact h1
    have hbelow : belowTwo53 (rounded10 (.fin neg a)) = true := by
      rw [hround]
      exact decide_eq_true (quotient_below _ hk)
    rw [formatResult_eq_formatRounding _ hbelow, hround]
    unfold formatRounding formatExact
    simp only []
    obtain ⟨hw1, hw2⟩ := quotient_whole _ hk
    by_cases hmod : exactScaled neg a % 10 ^ 10 = 0
    · rw [if_pos (hw1.2 hmod), if_pos hmod, hw2 hmod]
    · rw [if_neg (fun e => hmod (hw1.1 e)), if_neg hmod, quotient_fixed _ hk htie]

/-- C3 (the claim fails): on the result of `2/3` the code gives `0.66666667`,
the eighth fraction digit rounded, where truncating as the claim words it
gives `0.66666666`. The claim also fails where the binary64 arithmetic of
`formatResult` departs from the rounding it is meant to make: the whole result
`999999999` is printed as `999999999.00000012`; the whole result `2^60` with
the shortest digits that round back, not the digits of the value; the finite
result `1e300` as `Infinity`; `0.07967187495`, whose binary64 value lies below
the tie, as `0.07967188`; and `1.5e-8` as `0.00000001` where rounding the
eighth digit gives `0.00000002`. -/
theorem formatResult_differs_from_claimed_rendering :
    formatResult (fdiv (ofNat 2) (ofNat 3)) = "0.66666667".toList ∧
      formatClaimed (fdiv (ofNat 2) (ofNat 3)) = "0.66666666".toList ∧
      formatResult (ofNat 999999999) = "999999999.00000012".toList ∧
      formatClaimed (ofNat 999999999) = "999999999".toList ∧
      formatExact (ofNat 999999999) = "999999999".toList ∧
      formatResult (ofNat (2 ^ 60)) = "1152921504606847000".toList ∧
      formatClaimed (ofNat (2 ^ 60)) = "1152921504606846976".toList ∧
      isFinite (ofNat (10 ^ 300)) = true ∧
      formatResult (ofNat (10 ^ 300)) = "Infinity".toList ∧
      formatResult (fdiv (ofNat 7967187495) (ofNat (10 ^ 11))) = "0.07967188".toList ∧
      formatExact (fdiv (ofNat 7967187495) (ofNat (10 ^ 11))) = "0.07967187".toList ∧
      formatResult (fdiv (ofNat 15) (ofNat (10 ^ 9))) = "0.00000001".toList ∧
      formatExact (fdiv (ofNat 15) (ofNat (10 ^ 9))) = "0.00000002".toList := by
  decide

/-- C3 (amended): for every finite result `x` with `|x| * 10^10 < 2^53` whose
exact product `x * 10^10` is a binary64 number or lies farther than half a
unit in the last place from every `n + 1/2`, and whose rounding to 10 decimal
places, if it lies halfway between two decimals of 8 fraction digits, is not
above the binary64 number nearest to it, `formatResult x` is the rendering
obtained in exact arithmetic by rounding `x` to 10 decimal places and then
printing a whole value without a decimal part and any other value rounded to
8 fraction digits with the trailing zeros trimmed, the integer digits kept and
no bare point left; the results of `2+2`, `10/4` and `1/3` are such results
and are formatted as `4`, `2.5` and `0.33333333`. -/
theorem formatResult_renders_exact_rounding :
    (∀ x : JSNum, noiseFree x = true → formatResult x = formatExact x) ∧
      noiseFree (fadd (ofNat 2) (ofNat 2)) = true ∧
      formatResult (fadd (ofNat 2) (ofNat 2)) = "4".toList ∧
      noiseFree (fdiv (ofNat 10) (ofNat 4)) = true ∧
      formatResult (fdiv (ofNat 10) (ofNat 4)) = "2.5".toList ∧
      noiseFree (fdiv (ofNat 1) (ofNat 3)) = true ∧
      formatResult (fdiv (ofNat 1) (ofNat 3)) = "0.33333333".toList := by
  refine ⟨formatResult_eq_formatExact, ?_, ?_, ?_, ?_, ?_, ?_⟩ <;> decide

/-- An instance of C3 (amended): the result `4.96e-9` is rounded to 10 decimal
places first, to `0.0000000050`, and only then to 8 fraction digits: it is
formatted as `0.00000001`, where rounding it to 8 fraction digits at once
gives zero. -/
theorem formatResult_renders_exact_rounding_witness :
    noiseFree (fdiv (ofNat 496) (ofNat (10 ^ 11))) = true ∧
      formatResult (fdiv (ofNat 496) (ofNat (10 ^ 11))) =
        formatExact (fdiv (ofNat 496) (ofNat (10 ^ 11))) ∧
      formatExact (fdiv (ofNat 496) (ofNat (10 ^ 11))) = "0.00000001".toList :=
  ⟨by decide, formatResult_renders_exact_rounding.1 _ (by decide), by decide⟩

end Calc
